import Mathlib

/-!
Shallow embedding of the control-flow restructuring core of the revng-c
decompiler (`lib/RestructureCFGPass`), together with proofs checking the
specification's claims about it.

Node references are modelled as natural-number identifiers; C++ `std::set`
iteration and `std::vector` positions are modelled by lists in the order the
source iterates them.
-/

namespace RevngC

/-! ## ExprNode (include/revng-c/RestructureCFGPass/ExprNode.h)

The closed family of condition-expression nodes: Atomic (wrapping the
condition value of one basic block, modelled as a numeric block id), Not,
And, Or.  The C++ uses a tagged class hierarchy with `NodeKind`
`{ NK_Atomic, NK_Not, NK_And, NK_Or }`; here it is one inductive. -/

inductive ExprNode where
  | atomic (bb : Nat)
  | notE (e : ExprNode)
  | andE (l r : ExprNode)
  | orE (l r : ExprNode)
deriving DecidableEq, Repr

/-- The `NodeKind` tag of an `ExprNode`. -/
inductive ExprKind where
  | atomic | notK | andK | orK
deriving DecidableEq, Repr

def ExprNode.kind : ExprNode → ExprKind
  | .atomic _ => .atomic
  | .notE _ => .notK
  | .andE _ _ => .andK
  | .orE _ _ => .orK

/-! ## ASTNode kinds (include/revng-c/RestructureCFGPass/ASTNode.h) -/

/-- The `NodeKind` enumeration of `ASTNode`. -/
inductive ASTKind where
  | code | brk | cont | ifK | scs | list | switch | switchBreak | set
deriving DecidableEq, Repr

/-- One entry of an `ASTTree`'s node list, keeping the fields relevant to
identity checks: the per-tree ID assigned on insertion, the kind tag, and the
display name. -/
structure ASTNodeRec where
  id : Nat
  kind : ASTKind
  name : String
deriving DecidableEq, Repr

/-- `ASTNode::Clone` dispatches over all nine kinds and clones the node
(ASTNode.h, the `switch (getKind())` in `ASTNode::Clone`); every kind is
handled, so cloning a node record is total and preserves the kind and name
(the ID is re-assigned by the receiving tree). -/
def cloneASTNodeRec (n : ASTNodeRec) : ASTNodeRec := { n with id := 0 }

/-! ## ASTTree (lib/RestructureCFGPass/ASTTree.cpp)

`ASTTree.h` itself is not among the provided sources; the fields below are
modelled from the spec: an AST tree owns its node list and its condition
expression list, and assigns each inserted node a fresh ID from a counter
owned by the tree instance ("unique ordinal ID (scoped to its owning
graph)", spec section 3).  `getNewID` is modelled as returning the counter
and incrementing it. -/
structure ASTTreeState where
  nextID : Nat
  astNodeList : List ASTNodeRec
  condExprList : List ExprNode
deriving DecidableEq, Repr

def emptyASTTree : ASTTreeState := { nextID := 0, astNodeList := [], condExprList := [] }

/-- `getID` in ASTTree.cpp: reads and post-increments a process-global
counter (`static int Counter = 1`) and renders it as a string.  The counter
is global state, threaded explicitly. -/
def getID (counter : Nat) : String × Nat := (toString counter, counter + 1)

/-- `ASTTree::addSequenceNode`: appends a `SequenceNode` named
`"sequence " + getID()` and assigns it the tree's next ID.  Returns the
updated tree and the updated global counter. -/
def addSequenceNode (t : ASTTreeState) (counter : Nat) : ASTTreeState × Nat :=
  let p := getID counter
  let node : ASTNodeRec := { id := t.nextID, kind := .list, name := "sequence " ++ p.1 }
  ({ t with nextID := t.nextID + 1, astNodeList := t.astNodeList ++ [node] }, p.2)

/-- `ASTTree::addASTNode`: appends an externally constructed node (its kind
and name derive from the CFG node, not from the global counter) and assigns
it the tree's next ID. -/
def addASTNode (t : ASTTreeState) (kind : ASTKind) (name : String) : ASTTreeState :=
  let node : ASTNodeRec := { id := t.nextID, kind := kind, name := name }
  { t with nextID := t.nextID + 1, astNodeList := t.astNodeList ++ [node] }

/-- An abstract step of AST construction, as performed on an `ASTTree`
during restructuring: either a synthesized sequence node (which consumes the
global name counter) or any other node insertion. -/
inductive ASTBuildOp where
  | seqNode
  | plainNode (kind : ASTKind) (name : String)
deriving DecidableEq, Repr

/-- Run a list of AST construction steps on a tree, threading the global
sequence-name counter. -/
def runASTBuild : List ASTBuildOp → ASTTreeState → Nat → ASTTreeState × Nat
  | [], t, c => (t, c)
  | .seqNode :: ops, t, c =>
    let p := addSequenceNode t c
    runASTBuild ops p.1 p.2
  | .plainNode k n :: ops, t, c =>
    runASTBuild ops (addASTNode t k n) c

/-- `llvm::cast<AtomicNode>` as used in `ASTTree::copyASTNodesFrom` on each
element of the source tree's condition-expression list: succeeds only when
the expression is of the Atomic kind, and is a fatal assertion failure
otherwise (modelled as `none`). -/
def castAtomicClone : ExprNode → Option ExprNode
  | .atomic bb => some (.atomic bb)
  | _ => none

/-- The condition-expression cloning loop of `ASTTree::copyASTNodesFrom`
(ASTTree.cpp lines 113-119): each expression of the old AST is cloned via
`new AtomicNode(*cast<AtomicNode>(OldExpr.get()))`. -/
def copyCondExprs : List ExprNode → Option (List ExprNode)
  | [] => some []
  | e :: es =>
    match castAtomicClone e, copyCondExprs es with
    | some e', some es' => some (e' :: es')
    | _, _ => none

/-- `ASTTree::copyASTNodesFrom`, restricted to the state it transforms: all
AST nodes of the old tree are cloned (total, with IDs re-assigned by this
tree), then every condition expression is cloned through
`cast<AtomicNode>`.  A non-Atomic condition expression makes the whole
operation fail (fatal cast assertion), modelled as `none`. -/
def copyASTNodesFrom (t old : ASTTreeState) : Option ASTTreeState :=
  let cloned := old.astNodeList.map cloneASTNodeRec
  let renumbered := (cloned.enum).map fun p => { p.2 with id := t.nextID + p.1 }
  match copyCondExprs old.condExprList with
  | some exprs => some { nextID := t.nextID + renumbered.length,
                         astNodeList := t.astNodeList ++ renumbered,
                         condExprList := t.condExprList ++ exprs }
  | none => none

/-! ## MetaRegion node sets and the merge phases
(lib/RestructureCFGPass/RestructureCFG.cpp)

A `MetaRegion`'s node set (`std::set<BasicBlockNodeBB *> Nodes`) is modelled
as a `Finset Nat` of node ids.  The set-algebra member functions
(`intersectsWith`, `isSubSet`, `nodesEquality`, `mergeWith`) are declared in
MetaRegion.h; their bodies live in a MetaRegion implementation file that is
not among the provided sources.  They are modelled from the spec: "any two
regions that intersect without one being a subset of the other (or that
contain exactly the same node set) are merged" (section 4.2), so
`intersectsWith` is nonempty intersection, `isSubSet` is inclusion,
`nodesEquality` is set equality, and `mergeWith` is in-place union
(MetaRegion.h shows `mergeWith` inserting the other region's nodes). -/

abbrev Region := Finset Nat
abbrev EdgeD := Nat × Nat

def intersectsWith (a b : Region) : Bool := decide (a ∩ b).Nonempty

def isSubSet (a b : Region) : Bool := decide (a ⊆ b)

def nodesEquality (a b : Region) : Bool := decide (a = b)

def mergeWith (a b : Region) : Region := a ∪ b

/-- `MetaRegion::containsNode`. -/
def containsNode (r : Region) (n : Nat) : Bool := decide (n ∈ r)

/-- Inner loop of `checkMetaregionConsistency`: one region against every
backedge (`HasSource == HasTarget`, RestructureCFG.cpp lines 233-242). -/
def regionConsistent (r : Region) (backedges : List EdgeD) : Bool :=
  backedges.all fun e => containsNode r e.1 == containsNode r e.2

/-- `checkMetaregionConsistency` (RestructureCFG.cpp lines 228-246): for
every region and every backedge, the region contains the backedge's source
exactly when it contains the target. -/
def checkMetaregionConsistency (regions : List Region) (backedges : List EdgeD) : Bool :=
  regions.all fun r => regionConsistent r backedges

/-- The merge condition of `mergeSCSStep` (lines 122-127): the two regions
intersect, and either neither includes the other or their node sets are
exactly equal. -/
def mergePairCond (a b : Region) : Bool :=
  intersectsWith a b && ((!isSubSet a b && !isSubSet b a) || nodesEquality a b)

/-- Inner loop of `mergeSCSStep`: scan the regions after `a` for the first
one satisfying the merge condition; merge it into `a` and erase it. -/
def scanMergeFrom (a : Region) : List Region → Option (Region × List Region)
  | [] => none
  | b :: bs =>
    if mergePairCond a b then some (mergeWith a b, bs)
    else
      match scanMergeFrom a bs with
      | some p => some (p.1, b :: p.2)
      | none => none

/-- `mergeSCSStep` (lines 117-136): find the first pair (in vector order)
satisfying the merge condition, merge the second member into the first and
erase the second; `none` when no pair merges (the function returned
`false`). -/
def mergeSCSStep : List Region → Option (List Region)
  | [] => none
  | a :: rest =>
    match scanMergeFrom a rest with
    | some p => some (p.1 :: p.2)
    | none =>
      match mergeSCSStep rest with
      | some rest' => some (a :: rest')
      | none => none

/-- The `while (Changes)` loop of `simplifySCS` with explicit fuel; each
successful `mergeSCSStep` shortens the region list by one, so fuel equal to
the list length always reaches the fixed point. -/
def simplifySCSAux : Nat → List Region → List Region
  | 0, rs => rs
  | fuel + 1, rs =>
    match mergeSCSStep rs with
    | none => rs
    | some rs' => simplifySCSAux fuel rs'

/-- `simplifySCS` (lines 138-143): iterate `mergeSCSStep` to its fixed
point. -/
def simplifySCS (rs : List Region) : List Region := simplifySCSAux rs.length rs

/-! ### The abnormal-retreating merge phase (lines 145-218)

The `std::vector<MetaRegionBB>` is modelled as a list with stable positions
(the phase never erases during the loop; erasure happens once at the end);
pointers to metaregions become indices into that list.
`BackedgeMetaRegionMap` becomes an association list from backedges to
indices, and the blacklist a `Finset` of indices. -/

structure AbnormalState where
  regions : List Region
  bmap : List (EdgeD × Nat)
  blacklisted : Finset Nat
deriving DecidableEq

/-- Association-list lookup, as `std::map::at`. -/
def alookup (m : List (EdgeD × Nat)) (e : EdgeD) : Nat :=
  match m.find? (fun p => p.1 = e) with
  | some p => p.2
  | none => 0

/-- Association-list update, as `std::map::operator[]` assignment. -/
def aupdate (m : List (EdgeD × Nat)) (e : EdgeD) (v : Nat) : List (EdgeD × Nat) :=
  m.map fun p => if p.1 = e then (p.1, v) else p

/-- The abnormal test of `mergeSCSAbnormalRetreating` (lines 161-165): the
region contains exactly one endpoint of the backedge. -/
def isAbnormal (r : Region) (e : EdgeD) : Bool :=
  (containsNode r e.1 && !containsNode r e.2) || (!containsNode r e.1 && containsNode r e.2)

/-- Scan of `mergeSCSAbnormalRetreating`: the first non-blacklisted region
(in vector order) having an abnormal backedge (in backedge-set order). -/
def findAbnormal (st : AbnormalState) (backedges : List EdgeD) : Option (Nat × EdgeD) :=
  match st.regions.enum.find? (fun p =>
      p.1 ∉ st.blacklisted ∧ backedges.any (isAbnormal p.2)) with
  | none => none
  | some p =>
    match backedges.find? (isAbnormal p.2) with
    | some e => some (p.1, e)
    | none => none

/-- One iteration of `mergeSCSAbnormalRetreating` returning `true`
(lines 146-185): merge the region owning the abnormal backedge (via the
map) into the found region, repoint the map at the found region, and
blacklist the merged-away region. -/
def mergeAbnormalStep (backedges : List EdgeD) (st : AbnormalState) : Option AbnormalState :=
  match findAbnormal st backedges with
  | none => none
  | some (i, e) =>
    let j := alookup st.bmap e
    let merged := mergeWith (st.regions.getD i ∅) (st.regions.getD j ∅)
    some { regions := st.regions.set i merged,
           bmap := aupdate st.bmap e i,
           blacklisted := insert j st.blacklisted }

/-- The fixed-point loop of `simplifySCSAbnormalRetreating` (lines 202-208),
with explicit fuel; `some` only when the fixed point was reached. -/
def runAbnormal (backedges : List EdgeD) : Nat → AbnormalState → Option AbnormalState
  | 0, st => match mergeAbnormalStep backedges st with
             | none => some st
             | some _ => none
  | fuel + 1, st =>
    match mergeAbnormalStep backedges st with
    | none => some st
    | some st' => runAbnormal backedges fuel st'

/-- The erase/remove idiom at the end of `simplifySCSAbnormalRetreating`
(lines 210-217): drop the blacklisted metaregions, keeping order. -/
def eraseBlacklisted (st : AbnormalState) : List Region :=
  (st.regions.enum.filter (fun p => p.1 ∉ st.blacklisted)).map Prod.snd

/-- Initial backedge-to-metaregion map (lines 194-199): the i-th backedge
(in set order) maps to the i-th metaregion. -/
def initialBackedgeMap (backedges : List EdgeD) : List (EdgeD × Nat) :=
  backedges.enum.map fun p => (p.2, p.1)

/-- `simplifySCSAbnormalRetreating` (lines 187-218) with explicit fuel. -/
def simplifySCSAbnormalRetreating (backedges : List EdgeD) (regions : List Region)
    (fuel : Nat) : Option (List Region) :=
  match runAbnormal backedges fuel
      { regions := regions, bmap := initialBackedgeMap backedges, blacklisted := ∅ } with
  | some st => some (eraseBlacklisted st)
  | none => none

/-! ## Parent computation and innermost-first ordering
(RestructureCFG.cpp lines 248-309)

Metaregion pointers become indices into the (position-stable) region
vector; the implicit `RootMetaRegion` (which is not an element of the
vector) becomes `none`. -/

/-- The inner scan of `computeParents` from position `j` on: the first
region at or after `j`, other than region `i`, of which `target` is a
subset (`isSubSet`). -/
def findParentFrom (rs : List Region) (target : Region) (i : Nat) (j : Nat) : Option Nat :=
  if h : j < rs.length then
    if j ≠ i ∧ isSubSet target (rs.getD j ∅) then some j
    else findParentFrom rs target i (j + 1)
  else none
termination_by rs.length - j

/-- The inner scan of `computeParents` (lines 252-267): the first other
region, in vector order, of which region `i` is a subset. -/
def findParent (rs : List Region) (i : Nat) : Option Nat :=
  findParentFrom rs (rs.getD i ∅) i 0

/-- `computeParents` (lines 248-279): the parent index of every region, or
`none` when the parent is the implicit root metaregion. -/
def computeParents (rs : List Region) : List (Option Nat) :=
  (List.range rs.length).map (findParent rs)

/-- The `FoundParent` scan of `applyPartialOrder` (lines 289-296): region
`i`'s parent is some still-unprocessed region of the vector. -/
def foundParentIn (parents : List (Option Nat)) (processed : Finset Nat) (i : Nat) : Bool :=
  match parents.getD i none with
  | none => false
  | some j => decide (j ∉ processed) && decide (j ≠ i)

/-- One pass of the outer loop of `applyPartialOrder` (lines 286-304): the
first unprocessed region with no unprocessed parent. -/
def findNextRegion (n : Nat) (parents : List (Option Nat)) (processed : Finset Nat) :
    Option Nat :=
  (List.range n).find? (fun i => decide (i ∉ processed) && !foundParentIn parents processed i)

/-- The `while (V.size() != Processed.size())` loop of `applyPartialOrder`
(lines 285-305) with explicit fuel: push each found region and mark it
processed.  If a pass finds no region the C++ loop would spin forever; the
model then returns the accumulator as is (shown unreachable under the
claim's hypotheses). -/
def applyPartialOrderAux (n : Nat) (parents : List (Option Nat)) :
    Nat → Finset Nat → List Nat → List Nat
  | 0, _, acc => acc
  | fuel + 1, processed, acc =>
    if processed.card = n then acc
    else
      match findNextRegion n parents processed with
      | none => acc
      | some i => applyPartialOrderAux n parents fuel (insert i processed) (acc ++ [i])

/-- `applyPartialOrder` (lines 281-309): process all regions, then reverse
the collected order (so that the result is innermost-first). -/
def applyPartialOrder (rs : List Region) : List Nat :=
  (applyPartialOrderAux rs.length (computeParents rs) rs.length ∅ []).reverse

/-! ## BasicBlockNode graphs and the entry-dispatcher phase
(include/revng-c/RestructureCFGPass/BasicBlockNode.h;
RestructureCFG.cpp lines 618-721)

Nodes are records keyed by a numeric id; a graph holds its node list, edge
list and a fresh-id counter.  The graph-surgery helpers declared in the
missing Utils.h / RegionCFGTree implementation are modelled from the spec,
as noted on each. -/

/-- `BasicBlockNode::Type` (BasicBlockNode.h lines 34-42). -/
inductive BBKind where
  | code | empty | brk | cont | setK | collapsed | dispatcher
deriving DecidableEq, Repr

structure BBNode where
  id : Nat
  kind : BBKind
  stateVariableValue : Nat := 0
deriving DecidableEq, Repr

/-- An edge with its `EdgeInfo` (label set and inlined flag,
BasicBlockNode.h lines 56-71). -/
structure GEdge where
  src : Nat
  tgt : Nat
  labels : List Nat := []
  inlined : Bool := false
deriving DecidableEq, Repr

structure RegionGraph where
  nodes : List BBNode
  edges : List GEdge
  nextId : Nat
deriving DecidableEq, Repr

/-- Kind of the node with the given id, if present. -/
def nodeKind (g : RegionGraph) (n : Nat) : Option BBKind :=
  (g.nodes.find? (fun m => m.id = n)).map (·.kind)

/-- Modelled from the spec: `moveEdgeTarget` (declared in the missing
Utils.h) retargets the edge `(s, t)` to `(s, newTgt)` keeping its
`EdgeInfo` ("rewrite all incoming edges of the region ... accordingly",
spec 4.3 step 6).  Only the first match is changed; the node invariant
forbids duplicate (source, target) pairs. -/
def moveEdgeTarget : List GEdge → Nat → Nat → Nat → List GEdge
  | [], _, _, _ => []
  | e :: rest, s, t, newTgt =>
    if e.src = s ∧ e.tgt = t then { e with tgt := newTgt } :: rest
    else e :: moveEdgeTarget rest s t newTgt

/-- Modelled from the spec: `addPlainEdge` (missing Utils.h) adds an edge
with empty label set. -/
def addPlainEdge (es : List GEdge) (s t : Nat) : List GEdge :=
  es ++ [{ src := s, tgt := t }]

/-- Modelled from the spec: `addEdge` with an explicit `EdgeInfo` whose
label set is given (RestructureCFG.cpp lines 684-689 build
`EI = { Labels, false }`). -/
def addLabeledEdge (es : List GEdge) (s t : Nat) (labels : List Nat) : List GEdge :=
  es ++ [{ src := s, tgt := t, labels := labels }]

/-- Modelled from the spec: `RegionCFG::addEntryDispatcher` (missing
RegionCFGTree implementation) creates a fresh Dispatcher node ("synthesize
a Dispatcher node", spec 4.3 step 2).  Returns the graph and the new id. -/
def addEntryDispatcher (g : RegionGraph) : RegionGraph × Nat :=
  ({ g with nodes := g.nodes ++ [{ id := g.nextId, kind := .dispatcher }],
            nextId := g.nextId + 1 }, g.nextId)

/-- Modelled from the spec: `RegionCFG::addSetStateNode` creates a fresh
Set node carrying the given state-variable value (spec glossary: "Set node:
synthetic node that assigns a literal value to the dispatch state
variable"). -/
def addSetStateNode (g : RegionGraph) (v : Nat) : RegionGraph × Nat :=
  ({ g with nodes := g.nodes ++ [{ id := g.nextId, kind := .setK, stateVariableValue := v }],
            nextId := g.nextId + 1 }, g.nextId)

/-- Number of edges with the given (source, target) pair; the node
invariant ("successor/predecessor lists never contain duplicate pairs")
makes this 0 or 1 in well-formed graphs. -/
def countPair : List GEdge → Nat → Nat → Nat
  | [], _, _ => 0
  | e :: rest, s, t => (if e.src = s ∧ e.tgt = t then 1 else 0) + countPair rest s t

/-- Lines 619-631: the backedges whose source lies in the metaregion. -/
def retreatingsOf (meta : Region) (backedges : List EdgeD) : List EdgeD :=
  backedges.filter (fun e => containsNode meta e.1)

/-- Lines 620-630: the distinct targets of the retreating edges
(`std::set<BasicBlockNodeBB *> RetreatingTargets`; the set is enumerated
here in first-occurrence order, a fixed enumeration of the same set). -/
def retreatingTargetsOf (meta : Region) (backedges : List EdgeD) : List Nat :=
  ((retreatingsOf meta backedges).map Prod.snd).dedup

/-- Lines 649-655: the first node in reverse post order that is in the
metaregion and is a retreating target. -/
def electFirstCandidate (meta : Region) (targets : List Nat) (rpot : List Nat) : Option Nat :=
  rpot.find? (fun n => containsNode meta n && decide (n ∈ targets))

/-- Lines 692-711: route each retreating edge through a fresh Set node
(carrying the index of its target) into the new head.  The `isSet` branch
(lines 698-704) reproduces the source exactly: it creates the Set node but
moves the predecessor edge directly onto the head. -/
def rewireRetreatings (idxOf : Nat → Nat) (head : Nat) :
    List EdgeD → RegionGraph × Region → RegionGraph × Region
  | [], st => st
  | (s, t) :: rest, (g, meta) =>
    if nodeKind g s = some .setK then
      let pred := ((g.edges.filter (fun e => e.tgt = s)).map (·.src)).headD 0
      let p := addSetStateNode g (idxOf t)
      rewireRetreatings idxOf head rest
        ({ p.1 with edges := moveEdgeTarget p.1.edges pred s head }, insert p.2 meta)
    else
      let p := addSetStateNode g (idxOf t)
      rewireRetreatings idxOf head rest
        ({ p.1 with edges := addPlainEdge (moveEdgeTarget p.1.edges s t p.2) p.2 head },
         insert p.2 meta)

/-- Lines 713-720: move onto the new head every incoming edge of the old
first candidate whose source is outside the metaregion. -/
def movePredsToHead (g : RegionGraph) (meta : Region) (firstCandidate head : Nat) :
    RegionGraph :=
  let preds := (g.edges.filter
      (fun e => decide (e.tgt = firstCandidate) && !containsNode meta e.src)).map (·.src)
  { g with edges := preds.foldl (fun es p => moveEdgeTarget es p firstCandidate head) g.edges }

structure EntryDispatchResult where
  graph : RegionGraph
  meta : Region
  head : Nat
  newHeadNeeded : Bool
deriving DecidableEq

/-- The entry-dispatch phase of one Region Collapser iteration
(RestructureCFG.cpp lines 618-721): identify retreating edges and their
distinct targets, elect the first candidate head from reverse post order
(`none` models the `FirstCandidate != nullptr` assertion failing), and when
more than one distinct retreating target exists, create the entry
dispatcher, fan it out to every target with a singleton label per target
(lines 677-690), reroute every retreating edge through a fresh Set node
(lines 692-711), and move the external predecessors of the old candidate
onto the dispatcher (lines 713-720). -/
def entryDispatch (g : RegionGraph) (meta : Region) (backedges : List EdgeD)
    (rpot : List Nat) : Option EntryDispatchResult :=
  let retreatings := retreatingsOf meta backedges
  let targets := retreatingTargetsOf meta backedges
  match electFirstCandidate meta targets rpot with
  | none => none
  | some firstCandidate =>
    if targets.length > 1 then
      let p := addEntryDispatcher g
      let head := p.2
      let meta1 := insert head meta
      let g1 := { p.1 with
        edges := (targets.enum).foldl (fun es q => addLabeledEdge es head q.2 [q.1]) p.1.edges }
      let st := rewireRetreatings (fun t => targets.indexOf t) head retreatings (g1, meta1)
      let g3 := movePredsToHead st.1 st.2 firstCandidate head
      some { graph := g3, meta := st.2, head := head, newHeadNeeded := true }
    else
      some { graph := g, meta := meta, head := firstCandidate, newHeadNeeded := false }

/-! ## The backedge detector (RestructureCFG.cpp lines 60-115)

The iterative DFS of `getBackedges`: an explicit exploration stack of
(vertex, next-successor-index) pairs, start/finish time maps, and the
collected backedge set.  The graph is a finite node set with an ordered
successor list per node. -/

structure DFSGraph where
  univ : Finset Nat
  succ : Nat → List Nat
  entry : Nat

/-- Association-list lookup for the time maps (`std::map` keyed by node;
`count(x) == 0` is `tlookup = none`). -/
def tlookup (m : List (Nat × Nat)) (k : Nat) : Option Nat :=
  (m.find? (fun p => p.1 = k)).map (·.2)

/-- `std::set<EdgeDescriptor>::insert`. -/
def insertEdge (bs : List EdgeD) (e : EdgeD) : List EdgeD :=
  if e ∈ bs then bs else bs ++ [e]

structure DFSState where
  time : Nat
  startTime : List (Nat × Nat)
  finishTime : List (Nat × Nat)
  stack : List (Nat × Nat)
  backedges : List EdgeD
deriving DecidableEq, Repr

/-- One iteration of the `while (!Stack.empty())` loop (lines 76-112):
pop, mark the start time if first visit, then either traverse the next
successor (re-pushing the vertex with an advanced index, classifying the
edge as a backedge when the successor is started but unfinished, and
pushing an unstarted successor), or mark the finish time. -/
def dfsStep (g : DFSGraph) (s : DFSState) : Option DFSState :=
  match s.stack with
  | [] => none
  | (v, idx) :: rest =>
    let time := s.time + 1
    let startTime := if tlookup s.startTime v = none then (v, time) :: s.startTime
                     else s.startTime
    if h : idx < (g.succ v).length then
      let succNode := (g.succ v).get ⟨idx, h⟩
      let stack1 := (v, idx + 1) :: rest
      let backedges :=
        if tlookup startTime succNode ≠ none ∧ tlookup s.finishTime succNode = none
        then insertEdge s.backedges (v, succNode) else s.backedges
      let stack2 := if tlookup startTime succNode = none then (succNode, 0) :: stack1
                    else stack1
      some { time := time, startTime := startTime, finishTime := s.finishTime,
             stack := stack2, backedges := backedges }
    else
      some { time := time, startTime := startTime,
             finishTime := (v, time) :: s.finishTime, stack := rest,
             backedges := s.backedges }

/-- Twin of `dfsStep` that classifies a backedge by the textbook condition
of the claim: the successor is currently on the DFS exploration stack. -/
def dfsStepOnStack (g : DFSGraph) (s : DFSState) : Option DFSState :=
  match s.stack with
  | [] => none
  | (v, idx) :: rest =>
    let time := s.time + 1
    let startTime := if tlookup s.startTime v = none then (v, time) :: s.startTime
                     else s.startTime
    if h : idx < (g.succ v).length then
      let succNode := (g.succ v).get ⟨idx, h⟩
      let stack1 := (v, idx + 1) :: rest
      let backedges :=
        if succNode ∈ stack1.map Prod.fst
        then insertEdge s.backedges (v, succNode) else s.backedges
      let stack2 := if tlookup startTime succNode = none then (succNode, 0) :: stack1
                    else stack1
      some { time := time, startTime := startTime, finishTime := s.finishTime,
             stack := stack2, backedges := backedges }
    else
      some { time := time, startTime := startTime,
             finishTime := (v, time) :: s.finishTime, stack := rest,
             backedges := s.backedges }

def dfsInit (g : DFSGraph) : DFSState :=
  { time := 0, startTime := [], finishTime := [], stack := [(g.entry, 0)], backedges := [] }

def dfsRun (g : DFSGraph) : Nat → DFSState → DFSState
  | 0, s => s
  | fuel + 1, s =>
    match dfsStep g s with
    | none => s
    | some s' => dfsRun g fuel s'

def dfsRunOnStack (g : DFSGraph) : Nat → DFSState → DFSState
  | 0, s => s
  | fuel + 1, s =>
    match dfsStepOnStack g s with
    | none => s
    | some s' => dfsRunOnStack g fuel s'

/-- Largest successor-list length over the graph's nodes. -/
def maxSucc (g : DFSGraph) : Nat := g.univ.sup (fun v => (g.succ v).length)

/-- Fuel sufficient for the DFS to drain its stack (one more than an upper
bound of the decreasing measure). -/
def dfsFuel (g : DFSGraph) : Nat := (maxSucc g + 2) * g.univ.card + maxSucc g + 2

/-- `getBackedges` (lines 60-115). -/
def getBackedges (g : DFSGraph) : List EdgeD := (dfsRun g (dfsFuel g) (dfsInit g)).backedges

/-- The backedge set of the claim: same traversal, classifying an edge by
membership of its target in the current exploration stack. -/
def getBackedgesOnStack (g : DFSGraph) : List EdgeD :=
  (dfsRunOnStack g (dfsFuel g) (dfsInit g)).backedges

/-- A node is started when it has a start time (`StartTime.count != 0`). -/
def dfsStarted (s : DFSState) (v : Nat) : Prop := tlookup s.startTime v ≠ none

/-- A node is finished when it has a finish time. -/
def dfsFinished (s : DFSState) (v : Nat) : Prop := tlookup s.finishTime v ≠ none

/-- The nodes currently on the exploration stack. -/
def stackNodes (s : DFSState) : List Nat := s.stack.map Prod.fst

/-- Execution invariant of the iterative DFS: the gray nodes (started,
unfinished) are exactly the started stack nodes; all stack entries below
the top are started; no node occurs twice on the stack; finished implies
started; stack nodes belong to the graph; successor indices never pass the
successor count. -/
def dfsInv (g : DFSGraph) (s : DFSState) : Prop :=
  (∀ w, (dfsStarted s w ∧ ¬ dfsFinished s w) ↔ (w ∈ stackNodes s ∧ dfsStarted s w)) ∧
  (∀ w ∈ (s.stack.drop 1).map Prod.fst, dfsStarted s w) ∧
  (stackNodes s).Nodup ∧
  (∀ v, dfsFinished s v → dfsStarted s v) ∧
  (∀ v ∈ stackNodes s, v ∈ g.univ) ∧
  (∀ p ∈ s.stack, p.2 ≤ (g.succ p.1).length)

/-- Decreasing measure of the DFS loop: unstarted nodes not on the stack,
weighted heavily, plus the remaining successor work on the stack. -/
def dfsMeasure (g : DFSGraph) (s : DFSState) : Nat :=
  (maxSucc g + 2) * (g.univ.filter
      (fun v => tlookup s.startTime v = none ∧ v ∉ stackNodes s)).card
    + (s.stack.map (fun p => (g.succ p.1).length - p.2 + 1)).sum

/-- A small concrete graph (three nodes, a 0-1 cycle) used to exercise the
DFS model on a closed input. -/
def dfsExample : DFSGraph :=
  ⟨{0, 1, 2}, fun v => if v = 0 then [1] else if v = 1 then [0, 2] else [], 0⟩

/-! ## The pass driver (RestructureCFG.cpp lines 408-411 and 480-1189) -/

/-- `RestructureCFG::getAnalysisUsage` (lines 408-411): mark all analyses
preserved and require the model wrapper. -/
structure AnalysisUsage where
  preservesAll : Bool
  requiredPasses : List String
deriving DecidableEq, Repr

def restructureAnalysisUsage : AnalysisUsage :=
  { preservesAll := true, requiredPasses := ["LoadModelWrapperPass"] }

/-- The per-function input visible to the pass driver: whether the function
carries the `Lifted` tag, and its name (checked against the
single-decompilation target option). -/
structure FunctionInput where
  isLifted : Bool
  name : String
deriving DecidableEq, Repr

/-- The observable outcome of one `runOnFunction` call: the boolean the
pass returns to the LLVM pass manager, and whether the pass-owned side
state (the AST and the duplication counts) was rebuilt for this function. -/
structure RestructureResult where
  modified : Bool
  astComputed : Bool
deriving DecidableEq, Repr

/-- The control skeleton of `RestructureCFG::runOnFunction` (lines
480-1189): clear the side state; return `false` for non-lifted functions
(line 492); return `false` when a single-decompilation target is set and
does not match (line 498); otherwise perform the whole restructuring into
the pass-owned AST and return `false` (line 1188). -/
def runOnFunction (targetFunction : String) (f : FunctionInput) : RestructureResult :=
  if !f.isLifted then { modified := false, astComputed := false }
  else if targetFunction ≠ "" ∧ f.name ≠ targetFunction then
    { modified := false, astComputed := false }
  else { modified := false, astComputed := true }

/-- Two AST trees agree on everything the determinism property enumerates:
per-node IDs, per-node kinds and the tree shape (here, the node list's
length and order), and the ID counter; node names are not compared. -/
def sameSkeleton (t t' : ASTTreeState) : Prop :=
  t.nextID = t'.nextID ∧
  t.astNodeList.map ASTNodeRec.id = t'.astNodeList.map ASTNodeRec.id ∧
  t.astNodeList.map ASTNodeRec.kind = t'.astNodeList.map ASTNodeRec.kind ∧
  t.condExprList = t'.condExprList

/-! ### Lemmas about the merge phases -/

theorem regionConsistent_iff {r : Region} {be : List EdgeD} :
    regionConsistent r be = true ↔ ∀ e ∈ be, (e.1 ∈ r ↔ e.2 ∈ r) := by
  simp only [regionConsistent, List.all_eq_true, containsNode, beq_iff_eq, decide_eq_decide]

theorem regionConsistent_union {a b : Region} {be : List EdgeD}
    (ha : regionConsistent a be = true) (hb : regionConsistent b be = true) :
    regionConsistent (a ∪ b) be = true := by
  rw [regionConsistent_iff] at *
  intro e he
  have h1 := ha e he
  have h2 := hb e he
  simp only [Finset.mem_union]
  tauto

theorem scanMergeFrom_consistent {a : Region} {rs : List Region}
    {p : Region × List Region} {be : List EdgeD}
    (h : scanMergeFrom a rs = some p) (ha : regionConsistent a be = true)
    (hrs : ∀ r ∈ rs, regionConsistent r be = true) :
    regionConsistent p.1 be = true ∧ ∀ r ∈ p.2, regionConsistent r be = true := by
  induction rs generalizing p with
  | nil => simp [scanMergeFrom] at h
  | cons b bs ih =>
    simp only [scanMergeFrom] at h
    split at h
    · cases h
      exact ⟨regionConsistent_union ha (hrs b (by simp)),
             fun r hr => hrs r (by simp [hr])⟩
    · cases hs : scanMergeFrom a bs with
      | none => rw [hs] at h; cases h
      | some q =>
        rw [hs] at h
        cases h
        have := ih hs (fun r hr => hrs r (by simp [hr]))
        refine ⟨this.1, ?_⟩
        intro r hr
        rcases List.mem_cons.mp hr with h1 | h2
        · exact h1 ▸ hrs b (by simp)
        · exact this.2 r h2

theorem mergeSCSStep_consistent {rs rs' : List Region} {be : List EdgeD}
    (h : mergeSCSStep rs = some rs')
    (hrs : ∀ r ∈ rs, regionConsistent r be = true) :
    ∀ r ∈ rs', regionConsistent r be = true := by
  induction rs generalizing rs' with
  | nil => simp [mergeSCSStep] at h
  | cons a rest ih =>
    simp only [mergeSCSStep] at h
    cases hs : scanMergeFrom a rest with
    | some p =>
      rw [hs] at h
      cases h
      have := scanMergeFrom_consistent hs (hrs a (by simp))
        (fun r hr => hrs r (by simp [hr]))
      intro r hr
      rcases List.mem_cons.mp hr with h1 | h2
      · exact h1 ▸ this.1
      · exact this.2 r h2
    | none =>
      rw [hs] at h
      cases hm : mergeSCSStep rest with
      | none => rw [hm] at h; cases h
      | some q =>
        rw [hm] at h
        cases h
        intro r hr
        rcases List.mem_cons.mp hr with h1 | h2
        · exact h1 ▸ hrs a (by simp)
        · exact ih hm (fun r hr => hrs r (by simp [hr])) r h2

theorem scanMergeFrom_length {a : Region} {rs : List Region} {p : Region × List Region}
    (h : scanMergeFrom a rs = some p) : p.2.length + 1 = rs.length := by
  induction rs generalizing p with
  | nil => simp [scanMergeFrom] at h
  | cons b bs ih =>
    simp only [scanMergeFrom] at h
    split at h
    · cases h; simp
    · cases hs : scanMergeFrom a bs with
      | none => rw [hs] at h; cases h
      | some q => rw [hs] at h; cases h; simpa using ih hs

theorem mergeSCSStep_length {rs rs' : List Region}
    (h : mergeSCSStep rs = some rs') : rs'.length + 1 = rs.length := by
  induction rs generalizing rs' with
  | nil => simp [mergeSCSStep] at h
  | cons a rest ih =>
    simp only [mergeSCSStep] at h
    cases hs : scanMergeFrom a rest with
    | some p => rw [hs] at h; cases h; simpa using scanMergeFrom_length hs
    | none =>
      rw [hs] at h
      cases hm : mergeSCSStep rest with
      | none => rw [hm] at h; cases h
      | some q => rw [hm] at h; cases h; simpa using ih hm

theorem simplifySCSAux_fixed {fuel : Nat} {rs : List Region}
    (hfuel : rs.length ≤ fuel) : mergeSCSStep (simplifySCSAux fuel rs) = none := by
  induction fuel generalizing rs with
  | zero =>
    have : rs = [] := List.length_eq_zero.mp (Nat.le_zero.mp hfuel)
    subst this
    simp [simplifySCSAux, mergeSCSStep]
  | succ n ih =>
    simp only [simplifySCSAux]
    cases hm : mergeSCSStep rs with
    | none => exact hm
    | some rs' =>
      have := mergeSCSStep_length hm
      exact ih (by omega)

theorem simplifySCS_fixed (rs : List Region) : mergeSCSStep (simplifySCS rs) = none :=
  simplifySCSAux_fixed le_rfl

theorem simplifySCS_consistent {rs : List Region} {be : List EdgeD}
    (hrs : ∀ r ∈ rs, regionConsistent r be = true) :
    ∀ r ∈ simplifySCS rs, regionConsistent r be = true := by
  rw [simplifySCS]
  generalize rs.length = fuel
  induction fuel generalizing rs with
  | zero => exact hrs
  | succ n ih =>
    simp only [simplifySCSAux]
    cases hm : mergeSCSStep rs with
    | none => exact hrs
    | some rs' => exact ih (mergeSCSStep_consistent hm hrs)

theorem runAbnormal_fixed {be : List EdgeD} {fuel : Nat} {st st' : AbnormalState}
    (h : runAbnormal be fuel st = some st') :
    mergeAbnormalStep be st' = none := by
  induction fuel generalizing st with
  | zero =>
    simp only [runAbnormal] at h
    cases hm : mergeAbnormalStep be st with
    | none => rw [hm] at h; cases h; exact hm
    | some s => rw [hm] at h; cases h
  | succ n ih =>
    simp only [runAbnormal] at h
    cases hm : mergeAbnormalStep be st with
    | none => rw [hm] at h; cases h; exact hm
    | some s => rw [hm] at h; exact ih h

theorem eraseBlacklisted_consistent {be : List EdgeD} {st : AbnormalState}
    (h : mergeAbnormalStep be st = none) :
    ∀ r ∈ eraseBlacklisted st, regionConsistent r be = true := by
  simp only [mergeAbnormalStep] at h
  cases hf : findAbnormal st be with
  | some p => rw [hf] at h; cases h
  | none =>
    simp only [findAbnormal] at hf
    cases he : st.regions.enum.find? (fun p =>
        p.1 ∉ st.blacklisted ∧ be.any (isAbnormal p.2)) with
    | some q =>
      rw [he] at hf
      exfalso
      have hmem := List.find?_some he
      simp only [decide_eq_true_eq] at hmem
      rcases List.any_eq_true.mp hmem.2 with ⟨e, hein, habn⟩
      cases hb : be.find? (isAbnormal q.2) with
      | some e2 => simp only [hb] at hf; cases hf
      | none => exact (List.find?_eq_none.mp hb e hein) habn
    | none =>
      intro r hr
      simp only [eraseBlacklisted, List.mem_map, List.mem_filter] at hr
      obtain ⟨q, ⟨hq, hqb⟩, rfl⟩ := hr
      have := List.find?_eq_none.mp he q hq
      simp only [decide_eq_true_eq, not_and] at this hqb
      have hnoabn : ¬ be.any (isAbnormal q.2) = true := by
        intro habn
        exact (this (by simpa using hqb)) habn
      rw [regionConsistent_iff]
      intro e he2
      by_contra hne
      apply hnoabn
      refine List.any_eq_true.mpr ⟨e, he2, ?_⟩
      simp only [isAbnormal, containsNode, Bool.or_eq_true, Bool.and_eq_true,
        Bool.not_eq_true', decide_eq_true_eq, decide_eq_false_iff_not]
      tauto

theorem scanMergeFrom_none {a : Region} {rs : List Region}
    (h : scanMergeFrom a rs = none) : ∀ b ∈ rs, mergePairCond a b = false := by
  induction rs with
  | nil => simp
  | cons b bs ih =>
    simp only [scanMergeFrom] at h
    split at h
    · cases h
    · cases hs : scanMergeFrom a bs with
      | some q => rw [hs] at h; cases h
      | none =>
        intro c hc
        rcases List.mem_cons.mp hc with h1 | h2
        · subst h1
          rename_i hcond
          exact Bool.eq_false_iff.mpr hcond
        · exact ih hs c h2

theorem mergeSCSStep_none {rs : List Region} (h : mergeSCSStep rs = none) :
    rs.Pairwise (fun a b => mergePairCond a b = false) := by
  induction rs with
  | nil => simp
  | cons a rest ih =>
    simp only [mergeSCSStep] at h
    cases hs : scanMergeFrom a rest with
    | some p => rw [hs] at h; cases h
    | none =>
      rw [hs] at h
      cases hm : mergeSCSStep rest with
      | some q => rw [hm] at h; cases h
      | none => exact List.Pairwise.cons (scanMergeFrom_none hs) (ih hm)

theorem scanMergeFrom_nonempty {a : Region} {rs : List Region}
    {p : Region × List Region}
    (h : scanMergeFrom a rs = some p) (ha : a.Nonempty)
    (hrs : ∀ r ∈ rs, r.Nonempty) :
    p.1.Nonempty ∧ ∀ r ∈ p.2, r.Nonempty := by
  induction rs generalizing p with
  | nil => simp [scanMergeFrom] at h
  | cons b bs ih =>
    simp only [scanMergeFrom] at h
    split at h
    · cases h
      obtain ⟨x, hx⟩ := ha
      exact ⟨⟨x, Finset.mem_union_left _ hx⟩, fun r hr => hrs r (by simp [hr])⟩
    · cases hs : scanMergeFrom a bs with
      | none => rw [hs] at h; cases h
      | some q =>
        rw [hs] at h
        cases h
        have := ih hs (fun r hr => hrs r (by simp [hr]))
        refine ⟨this.1, ?_⟩
        intro r hr
        rcases List.mem_cons.mp hr with h1 | h2
        · exact h1 ▸ hrs b (by simp)
        · exact this.2 r h2

theorem mergeSCSStep_nonempty {rs rs' : List Region}
    (h : mergeSCSStep rs = some rs') (hrs : ∀ r ∈ rs, r.Nonempty) :
    ∀ r ∈ rs', r.Nonempty := by
  induction rs generalizing rs' with
  | nil => simp [mergeSCSStep] at h
  | cons a rest ih =>
    simp only [mergeSCSStep] at h
    cases hs : scanMergeFrom a rest with
    | some p =>
      rw [hs] at h
      cases h
      have := scanMergeFrom_nonempty hs (hrs a (by simp))
        (fun r hr => hrs r (by simp [hr]))
      intro r hr
      rcases List.mem_cons.mp hr with h1 | h2
      · exact h1 ▸ this.1
      · exact this.2 r h2
    | none =>
      rw [hs] at h
      cases hm : mergeSCSStep rest with
      | none => rw [hm] at h; cases h
      | some q =>
        rw [hm] at h
        cases h
        intro r hr
        rcases List.mem_cons.mp hr with h1 | h2
        · exact h1 ▸ hrs a (by simp)
        · exact ih hm (fun r hr => hrs r (by simp [hr])) r h2

theorem simplifySCS_nonempty {rs : List Region} (hrs : ∀ r ∈ rs, r.Nonempty) :
    ∀ r ∈ simplifySCS rs, r.Nonempty := by
  rw [simplifySCS]
  generalize rs.length = fuel
  induction fuel generalizing rs with
  | zero => exact hrs
  | succ n ih =>
    simp only [simplifySCSAux]
    cases hm : mergeSCSStep rs with
    | none => exact hrs
    | some rs' => exact ih (mergeSCSStep_nonempty hm hrs)

theorem mergePairCond_false_nesting {a b : Region} (ha : a.Nonempty)
    (h : mergePairCond a b = false) :
    (Disjoint a b ∨ a ⊂ b ∨ b ⊂ a) ∧ a ≠ b := by
  by_cases hint : (a ∩ b).Nonempty
  · have h' : (a ⊆ b ∨ b ⊆ a) ∧ a ≠ b := by
      simp only [mergePairCond, intersectsWith, isSubSet, nodesEquality, hint,
        Bool.true_and, Bool.or_eq_false_iff, Bool.and_eq_false_iff,
        Bool.not_eq_false', decide_eq_true_eq, decide_eq_false_iff_not,
        not_true, false_or] at h
      exact ⟨h.1, h.2⟩
    rcases h'.1 with hab | hba
    · exact ⟨Or.inr (Or.inl (Finset.ssubset_iff_subset_ne.mpr ⟨hab, h'.2⟩)),
        h'.2⟩
    · exact ⟨Or.inr (Or.inr (Finset.ssubset_iff_subset_ne.mpr ⟨hba, (Ne.symm h'.2)⟩)),
        h'.2⟩
  · have hdis : Disjoint a b := Finset.disjoint_iff_inter_eq_empty.mpr
      (Finset.not_nonempty_iff_eq_empty.mp hint)
    refine ⟨Or.inl hdis, ?_⟩
    rintro rfl
    exact hint (by simpa using ha)

/-! ### Lemmas for expression cloning and determinism -/

theorem copyCondExprs_atomic {l : List ExprNode}
    (h : ∀ e ∈ l, e.kind = ExprKind.atomic) : copyCondExprs l = some l := by
  induction l with
  | nil => rfl
  | cons e es ih =>
    have he := h e (by simp)
    cases e with
    | atomic bb =>
      simp only [copyCondExprs, castAtomicClone, ih (fun x hx => h x (by simp [hx]))]
    | notE _ => simp [ExprNode.kind] at he
    | andE _ _ => simp [ExprNode.kind] at he
    | orE _ _ => simp [ExprNode.kind] at he

theorem enum_setid_kinds (l : List ASTNodeRec) (base : Nat) :
    ((l.enum).map fun p => { p.2 with id := base + p.1 }).map ASTNodeRec.kind
      = l.map ASTNodeRec.kind := by
  rw [List.map_map]
  have heq : (ASTNodeRec.kind ∘ fun p : Nat × ASTNodeRec => { p.2 with id := base + p.1 })
      = ASTNodeRec.kind ∘ Prod.snd := by
    funext p
    rfl
  rw [heq, ← List.map_map, List.enum_map_snd]

theorem cloneASTNodeRec_kind (n : ASTNodeRec) :
    (cloneASTNodeRec n).kind = n.kind := rfl

theorem sameSkeleton_addSequenceNode {t t' : ASTTreeState} (c c' : Nat)
    (h : sameSkeleton t t') :
    sameSkeleton (addSequenceNode t c).1 (addSequenceNode t' c').1 := by
  obtain ⟨h1, h2, h3, h4⟩ := h
  refine ⟨by simp [addSequenceNode, h1], ?_, ?_, by simpa [addSequenceNode] using h4⟩
  · simp [addSequenceNode, h1, h2]
  · simp [addSequenceNode, h3]

theorem sameSkeleton_addASTNode {t t' : ASTTreeState} (k : ASTKind) (n : String)
    (h : sameSkeleton t t') :
    sameSkeleton (addASTNode t k n) (addASTNode t' k n) := by
  obtain ⟨h1, h2, h3, h4⟩ := h
  refine ⟨by simp [addASTNode, h1], ?_, ?_, by simpa [addASTNode] using h4⟩
  · simp [addASTNode, h1, h2]
  · simp [addASTNode, h3]

theorem runASTBuild_sameSkeleton (ops : List ASTBuildOp) {t t' : ASTTreeState}
    (c c' : Nat) (h : sameSkeleton t t') :
    sameSkeleton (runASTBuild ops t c).1 (runASTBuild ops t' c').1 := by
  induction ops generalizing t t' c c' with
  | nil => exact h
  | cons op ops ih =>
    cases op with
    | seqNode => exact ih _ _ (sameSkeleton_addSequenceNode c c' h)
    | plainNode k n => exact ih _ _ (sameSkeleton_addASTNode k n h)

/-! ### Lemmas for parent computation and innermost-first ordering -/

theorem findParentFrom_some {rs : List Region} {target : Region} {i : Nat} :
    ∀ d s j, rs.length - s ≤ d → findParentFrom rs target i s = some j →
      j < rs.length ∧ j ≠ i ∧ target ⊆ rs.getD j ∅ ∧ s ≤ j ∧
      ∀ k, s ≤ k → k < j → ¬(k ≠ i ∧ target ⊆ rs.getD k ∅) := by
  intro d
  induction d with
  | zero =>
    intro s j hd h
    rw [findParentFrom, dif_neg (by omega)] at h
    cases h
  | succ n ih =>
    intro s j hd h
    by_cases hs : s < rs.length
    · rw [findParentFrom, dif_pos hs] at h
      split at h
      · rename_i hc
        cases h
        refine ⟨hs, hc.1, by simpa [isSubSet] using hc.2, le_rfl, ?_⟩
        intro k hk1 hk2
        omega
      · rename_i hc
        have hrec := ih (s + 1) j (by omega) h
        refine ⟨hrec.1, hrec.2.1, hrec.2.2.1, by omega, ?_⟩
        intro k hk1 hk2
        rcases Nat.eq_or_lt_of_le hk1 with heq | hlt
        · intro hcc
          subst heq
          exact hc ⟨hcc.1, by simpa [isSubSet] using hcc.2⟩
        · exact hrec.2.2.2.2 k (by omega) hk2
    · rw [findParentFrom, dif_neg hs] at h
      cases h

theorem findParentFrom_none {rs : List Region} {target : Region} {i : Nat} :
    ∀ d s, rs.length - s ≤ d → findParentFrom rs target i s = none →
      ∀ k, s ≤ k → k < rs.length → ¬(k ≠ i ∧ target ⊆ rs.getD k ∅) := by
  intro d
  induction d with
  | zero =>
    intro s hd h k hk1 hk2
    omega
  | succ n ih =>
    intro s hd h k hk1 hk2
    by_cases hs : s < rs.length
    · rw [findParentFrom, dif_pos hs] at h
      split at h
      · cases h
      · rename_i hc
        rcases Nat.eq_or_lt_of_le hk1 with heq | hlt
        · intro hcc
          subst heq
          exact hc ⟨hcc.1, by simpa [isSubSet] using hcc.2⟩
        · exact ih (s + 1) (by omega) h k (by omega) hk2
    · omega

theorem tri_getD {rs : List Region}
    (htri : rs.Pairwise (fun a b => (Disjoint a b ∨ a ⊂ b ∨ b ⊂ a) ∧ a ≠ b))
    {i j : Nat} (hi : i < rs.length) (hj : j < rs.length) (hne : i ≠ j) :
    (Disjoint (rs.getD i ∅) (rs.getD j ∅) ∨ rs.getD i ∅ ⊂ rs.getD j ∅
      ∨ rs.getD j ∅ ⊂ rs.getD i ∅) ∧ rs.getD i ∅ ≠ rs.getD j ∅ := by
  rw [List.getD_eq_get _ _ hi, List.getD_eq_get _ _ hj]
  rcases Nat.lt_or_ge i j with hij | hij
  · exact List.pairwise_iff_get.mp htri ⟨i, hi⟩ ⟨j, hj⟩ hij
  · have hji : j < i := by omega
    have h := List.pairwise_iff_get.mp htri ⟨j, hj⟩ ⟨i, hi⟩ hji
    refine ⟨?_, h.2.symm⟩
    rcases h.1 with h1 | h1 | h1
    · exact Or.inl h1.symm
    · exact Or.inr (Or.inr h1)
    · exact Or.inr (Or.inl h1)

theorem sorted_card_getD {rs : List Region}
    (hsorted : rs.Pairwise (fun a b => a.card ≤ b.card))
    {i j : Nat} (hi : i < rs.length) (hj : j < rs.length) (hij : i < j) :
    (rs.getD i ∅).card ≤ (rs.getD j ∅).card := by
  rw [List.getD_eq_get _ _ hi, List.getD_eq_get _ _ hj]
  exact List.pairwise_iff_get.mp hsorted ⟨i, hi⟩ ⟨j, hj⟩ hij

theorem subset_strict_of_tri {rs : List Region}
    (htri : rs.Pairwise (fun a b => (Disjoint a b ∨ a ⊂ b ∨ b ⊂ a) ∧ a ≠ b))
    {i j : Nat} (hi : i < rs.length) (hj : j < rs.length) (hij : i ≠ j)
    (hsub : rs.getD i ∅ ⊆ rs.getD j ∅) : rs.getD i ∅ ⊂ rs.getD j ∅ :=
  Finset.ssubset_iff_subset_ne.mpr ⟨hsub, (tri_getD htri hi hj hij).2⟩

theorem computeParents_getD {rs : List Region} {i : Nat} (hi : i < rs.length) :
    (computeParents rs).getD i none = findParent rs i := by
  have hlen : i < ((List.range rs.length).map (findParent rs)).length := by simpa
  rw [computeParents, List.getD_eq_get _ _ hlen]
  simp

/-- Part (a) of C8: under the post-merge invariants, `findParent` finds the
smallest strict superset (or none exists when it answers the root). -/
theorem findParent_spec (rs : List Region)
    (hsorted : rs.Pairwise (fun a b => a.card ≤ b.card))
    (htri : rs.Pairwise (fun a b => (Disjoint a b ∨ a ⊂ b ∨ b ⊂ a) ∧ a ≠ b))
    (hne : ∀ r ∈ rs, r.Nonempty) (i : Nat) (hi : i < rs.length) :
    (∀ j, findParent rs i = some j → j < rs.length ∧ rs.getD i ∅ ⊂ rs.getD j ∅ ∧
       ∀ k, k < rs.length → k ≠ i → rs.getD i ∅ ⊂ rs.getD k ∅ →
         rs.getD j ∅ ⊆ rs.getD k ∅) ∧
    (findParent rs i = none →
       ∀ k, k < rs.length → k ≠ i → ¬ rs.getD i ∅ ⊂ rs.getD k ∅) := by
  have hne_i : (rs.getD i ∅).Nonempty := by
    rw [List.getD_eq_get _ _ hi]
    exact hne _ (rs.get_mem i hi)
  constructor
  · intro j h
    have hp := @findParentFrom_some rs (rs.getD i ∅) i rs.length 0 j (by omega) h
    have hstrict : rs.getD i ∅ ⊂ rs.getD j ∅ :=
      subset_strict_of_tri htri hi hp.1 (Ne.symm hp.2.1) hp.2.2.1
    refine ⟨hp.1, hstrict, ?_⟩
    intro k hk hki hik
    by_cases hkj : k = j
    · subst hkj
      exact Finset.Subset.refl _
    · have hkge : ¬ k < j := by
        intro hlt
        exact hp.2.2.2.2 k (by omega) hlt ⟨hki, hik.subset⟩
      have hjk : j < k := by omega
      have hcard : (rs.getD j ∅).card ≤ (rs.getD k ∅).card :=
        sorted_card_getD hsorted hp.1 hk hjk
      have htrijk := (tri_getD htri hp.1 hk (by omega)).1
      rcases htrijk with hdis | hss | hss
      · exfalso
        obtain ⟨x, hx⟩ := hne_i
        exact Finset.disjoint_left.mp hdis (hstrict.subset hx) (hik.subset hx)
      · exact hss.subset
      · exfalso
        have := Finset.card_lt_card hss
        omega
  · intro h k hk hki hik
    exact @findParentFrom_none rs (rs.getD i ∅) i rs.length 0 (by omega) h k
      (by omega) hk ⟨hki, hik.subset⟩

/-- Progress of one `applyPartialOrder` pass: while regions remain
unprocessed, the scan finds one whose parent is processed or absent.  The
weight `w` abstracts the region size (a parent is always strictly
heavier). -/
theorem findNextRegion_progress (n : Nat) (parents : List (Option Nat)) (w : Nat → Nat)
    (hpar : ∀ i j, i < n → parents.getD i none = some j → j < n ∧ w i < w j)
    (processed : Finset Nat) (hsub : processed ⊆ Finset.range n)
    (hlt : processed.card < n) :
    (findNextRegion n parents processed).isSome := by
  have hU : ((Finset.range n) \ processed).Nonempty := by
    rw [← Finset.card_pos, Finset.card_sdiff hsub, Finset.card_range]
    omega
  obtain ⟨i, hiU, himax⟩ := Finset.exists_max_image _ w hU
  have hiin : i < n := Finset.mem_range.mp (Finset.mem_sdiff.mp hiU).1
  have hinp : i ∉ processed := (Finset.mem_sdiff.mp hiU).2
  rw [findNextRegion, List.find?_isSome]
  refine ⟨i, List.mem_range.mpr hiin, ?_⟩
  simp only [Bool.and_eq_true, decide_eq_true_eq, Bool.not_eq_true']
  refine ⟨hinp, ?_⟩
  rw [foundParentIn]
  cases hp : parents.getD i none with
  | none => rfl
  | some j =>
    simp only [Bool.and_eq_false_iff, decide_eq_false_iff_not, not_not]
    by_contra hcon
    push_neg at hcon
    obtain ⟨hjnp, hji⟩ := hcon
    have hj := hpar i j hiin hp
    have hjU : j ∈ (Finset.range n) \ processed :=
      Finset.mem_sdiff.mpr ⟨Finset.mem_range.mpr hj.1, hjnp⟩
    have := himax j hjU
    omega

/-- The `applyPartialOrder` loop keeps: processed = the set of pushed
regions, no duplicates, all indices in range, and every pushed region's
parent pushed strictly before it; with enough fuel it pushes all `n`. -/
theorem applyPartialOrderAux_spec (n : Nat) (parents : List (Option Nat)) (w : Nat → Nat)
    (hpar : ∀ i j, i < n → parents.getD i none = some j → j < n ∧ w i < w j) :
    ∀ fuel (processed : Finset Nat) (acc : List Nat),
      processed = acc.toFinset → acc.Nodup → (∀ x ∈ acc, x < n) →
      (∀ k (hk : k < acc.length) j,
         parents.getD (acc.get ⟨k, hk⟩) none = some j → j ∈ acc.take k) →
      acc.length + fuel = n →
      (applyPartialOrderAux n parents fuel processed acc).length = n ∧
      (applyPartialOrderAux n parents fuel processed acc).Nodup ∧
      (∀ x ∈ applyPartialOrderAux n parents fuel processed acc, x < n) ∧
      (∀ k (hk : k < (applyPartialOrderAux n parents fuel processed acc).length) j,
         parents.getD ((applyPartialOrderAux n parents fuel processed acc).get ⟨k, hk⟩) none
           = some j → j ∈ (applyPartialOrderAux n parents fuel processed acc).take k) := by
  intro fuel
  induction fuel with
  | zero =>
    intro processed acc hpe hnd hlt hord hlen
    simp only [applyPartialOrderAux]
    exact ⟨by omega, hnd, hlt, hord⟩
  | succ m ih =>
    intro processed acc hpe hnd hlt hord hlen
    have hcard : processed.card = acc.length := by
      rw [hpe]
      exact List.toFinset_card_of_nodup hnd
    rw [applyPartialOrderAux, if_neg (by omega)]
    have hsub : processed ⊆ Finset.range n := by
      rw [hpe]
      intro x hx
      exact Finset.mem_range.mpr (hlt x (List.mem_toFinset.mp hx))
    obtain ⟨i, hifind⟩ := Option.isSome_iff_exists.mp
      (findNextRegion_progress n parents w hpar processed hsub (by omega))
    rw [hifind]
    have hipred := List.find?_some hifind
    have hin : i < n := List.mem_range.mp (List.mem_of_find?_eq_some hifind)
    simp only [Bool.and_eq_true, decide_eq_true_eq, Bool.not_eq_true'] at hipred
    obtain ⟨hinp, hfp⟩ := hipred
    have hinacc : i ∉ acc := fun hmem => hinp (hpe ▸ List.mem_toFinset.mpr hmem)
    have hnd' : (acc ++ [i]).Nodup := by
      rw [List.nodup_append]
      exact ⟨hnd, List.nodup_singleton i, by simpa using hinacc⟩
    have hparent_done : ∀ j, parents.getD i none = some j → j ∈ acc := by
      intro j hj
      rw [foundParentIn, hj] at hfp
      simp only [Bool.and_eq_false_iff, decide_eq_false_iff_not, not_not] at hfp
      rcases hfp with hjp | hji
      · exact List.mem_toFinset.mp (hpe ▸ hjp)
      · exfalso
        subst hji
        have := hpar _ _ hin hj
        omega
    apply ih (insert i processed) (acc ++ [i])
    · rw [hpe]
      ext x
      simp [List.mem_toFinset, or_comm]
    · exact hnd'
    · intro x hx
      rcases List.mem_append.mp hx with hxa | hxi
      · exact hlt x hxa
      · simp only [List.mem_singleton] at hxi
        omega
    · intro k hk j hj
      have hklen : k < acc.length + 1 := by simpa using hk
      rcases Nat.lt_or_ge k acc.length with hka | hka
      · rw [List.get_append k hka] at hj
        rw [List.take_append_of_le_length (by omega)]
        exact hord k hka j hj
      · have hkeq : k = acc.length := by omega
        subst hkeq
        have hgeti : (acc ++ [i]).get ⟨acc.length, hk⟩ = i := by
          simp
        rw [hgeti] at hj
        have := hparent_done j hj
        rw [List.take_append_of_le_length (le_refl _)]
        simpa using this
    · simp only [List.length_append, List.length_singleton]
      omega

/-! ### Lemmas about graph surgery (moveEdgeTarget and friends) -/

theorem moveEdgeTarget_mem_of_ne {es : List GEdge} {s t x : Nat} {e : GEdge}
    (he : e ∈ es) (hne : ¬(e.src = s ∧ e.tgt = t)) : e ∈ moveEdgeTarget es s t x := by
  induction es with
  | nil => cases he
  | cons a rest ih =>
    rw [moveEdgeTarget]
    split
    · rcases List.mem_cons.mp he with rfl | hr
      · rename_i hc
        exact absurd hc hne
      · exact List.mem_cons_of_mem _ hr
    · rcases List.mem_cons.mp he with rfl | hr
      · exact List.mem_cons_self _ _
      · exact List.mem_cons_of_mem _ (ih hr)

theorem countPair_eq_zero_iff {es : List GEdge} {a b : Nat} :
    countPair es a b = 0 ↔ ∀ e ∈ es, ¬(e.src = a ∧ e.tgt = b) := by
  induction es with
  | nil => simp [countPair]
  | cons e rest ih =>
    rw [countPair]
    constructor
    · intro h
      have h1 : ¬(e.src = a ∧ e.tgt = b) := by
        intro hp
        rw [if_pos hp] at h
        omega
      intro e' he'
      rcases List.mem_cons.mp he' with rfl | hr
      · exact h1
      · rw [if_neg h1] at h
        exact ih.mp (by omega) e' hr
    · intro h
      rw [if_neg (h e (by simp)), ih.mpr (fun e' he' => h e' (by simp [he']))]

theorem countPair_pos_of_mem {es : List GEdge} {e : GEdge} (he : e ∈ es) :
    0 < countPair es e.src e.tgt := by
  induction es with
  | nil => cases he
  | cons a rest ih =>
    rw [countPair]
    rcases List.mem_cons.mp he with rfl | hr
    · rw [if_pos ⟨rfl, rfl⟩]
      omega
    · have := ih hr
      omega

theorem countPair_exists_of_pos {es : List GEdge} {a b : Nat}
    (h : 0 < countPair es a b) : ∃ e ∈ es, e.src = a ∧ e.tgt = b := by
  by_contra hc
  push_neg at hc
  rw [countPair_eq_zero_iff.mpr (fun e he => by
    intro hp
    exact (hc e he hp.1) hp.2)] at h
  omega

theorem moveEdgeTarget_subset {es : List GEdge} {s t x : Nat} {e : GEdge}
    (he : e ∈ moveEdgeTarget es s t x) : e ∈ es ∨ (e.src = s ∧ e.tgt = x) := by
  induction es with
  | nil => cases he
  | cons a rest ih =>
    rw [moveEdgeTarget] at he
    split at he
    · rename_i hc
      rcases List.mem_cons.mp he with rfl | hr
      · exact Or.inr ⟨hc.1, rfl⟩
      · exact Or.inl (List.mem_cons_of_mem _ hr)
    · rcases List.mem_cons.mp he with rfl | hr
      · exact Or.inl (List.mem_cons_self _ _)
      · rcases ih hr with h1 | h2
        · exact Or.inl (List.mem_cons_of_mem _ h1)
        · exact Or.inr h2

theorem moveEdgeTarget_moved {es : List GEdge} {s t x : Nat}
    (h : 0 < countPair es s t) :
    ∃ e ∈ moveEdgeTarget es s t x, e.src = s ∧ e.tgt = x := by
  induction es with
  | nil => simp [countPair] at h
  | cons a rest ih =>
    rw [moveEdgeTarget]
    split
    · rename_i hc
      exact ⟨_, List.mem_cons_self _ _, hc.1, rfl⟩
    · rename_i hc
      have hcount : 0 < countPair rest s t := by
        rw [countPair, if_neg hc] at h
        omega
      obtain ⟨e, he, hp⟩ := ih hcount
      exact ⟨e, List.mem_cons_of_mem _ he, hp⟩

theorem countPair_moveEdgeTarget_ne {es : List GEdge} {s t x a b : Nat}
    (h1 : ¬(a = s ∧ b = t)) (h2 : ¬(a = s ∧ b = x)) :
    countPair (moveEdgeTarget es s t x) a b = countPair es a b := by
  induction es with
  | nil => rfl
  | cons e rest ih =>
    rw [moveEdgeTarget]
    split
    · rename_i hc
      rw [countPair, countPair]
      have hL : ¬(({ e with tgt := x } : GEdge).src = a ∧ ({ e with tgt := x } : GEdge).tgt = b) := by
        intro hp
        exact h2 ⟨by rw [← hp.1]; exact hc.1, hp.2.symm⟩
      have hR : ¬(e.src = a ∧ e.tgt = b) := by
        intro hp
        exact h1 ⟨by rw [← hp.1]; exact hc.1, by rw [← hp.2]; exact hc.2⟩
      rw [if_neg hL, if_neg hR]
    · rw [countPair, countPair, ih]

theorem countPair_append {es : List GEdge} {e0 : GEdge} {a b : Nat}
    (h : ¬(e0.src = a ∧ e0.tgt = b)) :
    countPair (es ++ [e0]) a b = countPair es a b := by
  induction es with
  | nil => simp [countPair, h]
  | cons e rest ih =>
    rw [List.cons_append, countPair, countPair, ih]

theorem moveEdgeTarget_removes {es : List GEdge} {s t x : Nat}
    (hcount : countPair es s t = 1) (hx : x ≠ t) :
    ∀ e ∈ moveEdgeTarget es s t x, ¬(e.src = s ∧ e.tgt = t) := by
  induction es with
  | nil => simp [moveEdgeTarget]
  | cons a rest ih =>
    rw [moveEdgeTarget]
    split
    · rename_i hc
      intro e he
      rcases List.mem_cons.mp he with rfl | hr
      · intro hp
        exact hx hp.2
      · intro hp
        rw [countPair, if_pos hc] at hcount
        have hz : countPair rest s t = 0 := by omega
        have hpos : 0 < countPair rest s t := by
          have := countPair_pos_of_mem hr
          rw [hp.1, hp.2] at this
          exact this
        omega
    · rename_i hc
      intro e he
      rcases List.mem_cons.mp he with rfl | hr
      · exact hc
      · rw [countPair, if_neg hc] at hcount
        exact ih (by omega) e hr

theorem countPair_le_one_of_nodup {es : List GEdge}
    (hnd : (es.map (fun e => (e.src, e.tgt))).Nodup) (a b : Nat) :
    countPair es a b ≤ 1 := by
  induction es with
  | nil => simp [countPair]
  | cons e rest ih =>
    rw [List.map_cons, List.nodup_cons] at hnd
    rw [countPair]
    split
    · rename_i hp
      have hz : countPair rest a b = 0 := by
        rw [countPair_eq_zero_iff]
        intro e' he' hp'
        apply hnd.1
        rw [List.mem_map]
        exact ⟨e', he', by rw [hp'.1, hp'.2, hp.1, hp.2]⟩
      omega
    · have := ih hnd.2
      omega

/-! ### Lemmas about the fan-out and predecessor-move folds -/

theorem fanoutFold_mem {l : List (Nat × Nat)} {head : Nat} :
    ∀ {es : List GEdge} {e : GEdge}, e ∈ es →
      e ∈ l.foldl (fun es q => addLabeledEdge es head q.2 [q.1]) es := by
  induction l with
  | nil => intro es e he; exact he
  | cons q rest ih =>
    intro es e he
    exact ih (List.mem_append_left _ he)

theorem fanoutFold_new {l : List (Nat × Nat)} {head : Nat} {q : Nat × Nat} (hq : q ∈ l) :
    ∀ {es : List GEdge},
      ∃ e ∈ l.foldl (fun es q => addLabeledEdge es head q.2 [q.1]) es,
        e.src = head ∧ e.tgt = q.2 ∧ e.labels = [q.1] := by
  induction l with
  | nil => cases hq
  | cons a rest ih =>
    intro es
    rcases List.mem_cons.mp hq with rfl | hr
    · refine ⟨{ src := head, tgt := q.2, labels := [q.1] }, ?_, rfl, rfl, rfl⟩
      exact @fanoutFold_mem rest head (addLabeledEdge es head q.2 [q.1]) _
        (List.mem_append_right _ (List.mem_singleton.mpr rfl))
    · exact ih hr

theorem fanoutFold_subset {l : List (Nat × Nat)} {head : Nat} :
    ∀ {es : List GEdge} {e : GEdge},
      e ∈ l.foldl (fun es q => addLabeledEdge es head q.2 [q.1]) es →
      e ∈ es ∨ (e.src = head ∧ ∃ q ∈ l, e.tgt = q.2) := by
  induction l with
  | nil => intro es e he; exact Or.inl he
  | cons a rest ih =>
    intro es e he
    rcases ih he with h1 | h2
    · simp only [addLabeledEdge] at h1
      rcases List.mem_append.mp h1 with h3 | h4
      · exact Or.inl h3
      · simp only [List.mem_singleton] at h4
        subst h4
        exact Or.inr ⟨rfl, a, by simp, rfl⟩
    · exact Or.inr ⟨h2.1, h2.2.choose, List.mem_cons_of_mem _ h2.2.choose_spec.1,
        h2.2.choose_spec.2⟩

theorem countPair_fanoutFold {l : List (Nat × Nat)} {head : Nat} {a b : Nat}
    (ha : a ≠ head) :
    ∀ {es : List GEdge},
      countPair (l.foldl (fun es q => addLabeledEdge es head q.2 [q.1]) es) a b
        = countPair es a b := by
  induction l with
  | nil => intro es; rfl
  | cons q rest ih =>
    intro es
    rw [List.foldl_cons, ih, addLabeledEdge, countPair_append]
    intro hp
    exact ha hp.1.symm

theorem predFold_preserve {ps : List Nat} {fc x : Nat} :
    ∀ {es : List GEdge} {e : GEdge}, e ∈ es → (∀ p ∈ ps, ¬(e.src = p ∧ e.tgt = fc)) →
      e ∈ ps.foldl (fun es' p => moveEdgeTarget es' p fc x) es := by
  induction ps with
  | nil => intro es e he _; exact he
  | cons p rest ih =>
    intro es e he hne
    exact ih (moveEdgeTarget_mem_of_ne he (hne p (by simp)))
      (fun p' hp' => hne p' (by simp [hp']))

theorem predFold_subset {ps : List Nat} {fc x : Nat} :
    ∀ {es : List GEdge} {e : GEdge},
      e ∈ ps.foldl (fun es' p => moveEdgeTarget es' p fc x) es →
      e ∈ es ∨ e.tgt = x := by
  induction ps with
  | nil => intro es e he; exact Or.inl he
  | cons p rest ih =>
    intro es e he
    rcases ih he with h1 | h2
    · rcases moveEdgeTarget_subset h1 with h3 | h4
      · exact Or.inl h3
      · exact Or.inr h4.2
    · exact Or.inr h2

theorem find?_append_id {nodes : List BBNode} {nd : BBNode} {s : Nat} (h : nd.id ≠ s) :
    (nodes ++ [nd]).find? (fun m => m.id = s) = nodes.find? (fun m => m.id = s) := by
  rw [List.find?_append]
  cases hf : nodes.find? (fun m => m.id = s) with
  | some v => rfl
  | none => simp [List.find?, h]

/-- Invariant-carrying specification of `rewireRetreatings`.  The `isSet`
branch is never taken because every retreating source is a non-Set node
(the pass asserts backedge sources are Empty dummies): every retreating
edge `(s, t)` is rerouted through a fresh Set node `m` carrying `idxOf t`,
with `s → m → head` in the result and the original `(s, t)` edge gone. -/
theorem rewireRetreatings_spec (idxOf : Nat → Nat) (head : Nat) :
    ∀ (rem : List EdgeD) (g' : RegionGraph) (meta' : Region),
      (∀ e ∈ g'.edges, e.src < g'.nextId ∧ e.tgt < g'.nextId) →
      head < g'.nextId →
      rem.Nodup →
      (∀ r ∈ rem, r.1 < head ∧ r.2 < head ∧ nodeKind g' r.1 ≠ some BBKind.setK ∧
        countPair g'.edges r.1 r.2 = 1) →
      g'.nextId ≤ (rewireRetreatings idxOf head rem (g', meta')).1.nextId ∧
      (∀ e ∈ (rewireRetreatings idxOf head rem (g', meta')).1.edges,
        e.src < (rewireRetreatings idxOf head rem (g', meta')).1.nextId ∧
        e.tgt < (rewireRetreatings idxOf head rem (g', meta')).1.nextId) ∧
      (∀ nd ∈ g'.nodes, nd ∈ (rewireRetreatings idxOf head rem (g', meta')).1.nodes) ∧
      (∀ e ∈ g'.edges, (head ≤ e.src ∨ head ≤ e.tgt) →
        e ∈ (rewireRetreatings idxOf head rem (g', meta')).1.edges) ∧
      (∀ a b, b < head → (∀ e ∈ g'.edges, ¬(e.src = a ∧ e.tgt = b)) →
        ∀ e ∈ (rewireRetreatings idxOf head rem (g', meta')).1.edges,
          ¬(e.src = a ∧ e.tgt = b)) ∧
      meta' ⊆ (rewireRetreatings idxOf head rem (g', meta')).2 ∧
      (∀ r ∈ rem, ∃ m, head < m ∧
        ({ id := m, kind := BBKind.setK, stateVariableValue := idxOf r.2 } : BBNode)
          ∈ (rewireRetreatings idxOf head rem (g', meta')).1.nodes ∧
        (∃ e ∈ (rewireRetreatings idxOf head rem (g', meta')).1.edges,
          e.src = r.1 ∧ e.tgt = m) ∧
        (∃ e ∈ (rewireRetreatings idxOf head rem (g', meta')).1.edges,
          e.src = m ∧ e.tgt = head) ∧
        (∀ e ∈ (rewireRetreatings idxOf head rem (g', meta')).1.edges,
          ¬(e.src = r.1 ∧ e.tgt = r.2))) := by
  intro rem
  induction rem with
  | nil =>
    intro g' meta' hb hhead hnd hrem
    rw [rewireRetreatings]
    exact ⟨le_rfl, hb, fun nd h => h, fun e he _ => he, fun a b _ habs => habs,
      Finset.Subset.refl _, by simp⟩
  | cons r rest ih =>
    intro g' meta' hb hhead hnd hrem
    obtain ⟨s, t⟩ := r
    have hr0 := hrem (s, t) (by simp)
    have hs : s < head := hr0.1
    have ht : t < head := hr0.2.1
    have hkind : nodeKind g' s ≠ some BBKind.setK := hr0.2.2.1
    have hcount : countPair g'.edges s t = 1 := hr0.2.2.2
    rw [rewireRetreatings, if_neg (by simpa using hkind)]
    simp only [addSetStateNode]
    have hm : head < g'.nextId := hhead
    -- Abbreviations for the one-step state.
    have hmain := ih
      { nodes := g'.nodes ++ [⟨g'.nextId, BBKind.setK, idxOf t⟩],
        edges := addPlainEdge (moveEdgeTarget g'.edges s t g'.nextId) g'.nextId head,
        nextId := g'.nextId + 1 }
      (insert g'.nextId meta')
      (by
        intro e he
        simp only [addPlainEdge] at he
        rcases List.mem_append.mp he with h1 | h2
        · rcases moveEdgeTarget_subset h1 with h3 | h4
          · have := hb e h3
            simp only
            omega
          · simp only
            omega
        · simp only [List.mem_singleton] at h2
          subst h2
          simp only
          omega)
      (by simp only; omega)
      (List.Nodup.of_cons hnd)
      (by
        intro r' hr'
        have h1 := hrem r' (by simp [hr'])
        have hner : (s, t) ≠ r' := by
          intro hEq
          rw [hEq] at hnd
          exact (List.nodup_cons.mp hnd).1 hr'
        refine ⟨h1.1, h1.2.1, ?_, ?_⟩
        · simp only [nodeKind] at h1 ⊢
          rw [find?_append_id (by simp only; omega)]
          exact h1.2.2.1
        · simp only [addPlainEdge]
          rw [countPair_append (by simp only; omega)]
          rw [countPair_moveEdgeTarget_ne ?hp1 ?hp2]
          · exact h1.2.2.2
          case hp1 =>
            intro hp
            exact hner (by rw [← hp.1, ← hp.2])
          case hp2 =>
            intro hp
            have := h1.2.1
            omega)
    obtain ⟨ih1, ih2, ih3, ih4, ih5, ih6, ih7⟩ := hmain
    refine ⟨le_trans (Nat.le_succ _) ih1, ih2, ?_, ?_, ?_, ?_, ?_⟩
    · intro nd hnd'
      exact ih3 nd (List.mem_append_left _ hnd')
    · intro e he hhi
      apply ih4
      · simp only [addPlainEdge]
        apply List.mem_append_left
        apply moveEdgeTarget_mem_of_ne he
        intro hp
        rcases hhi with h1 | h1
        · omega
        · omega
      · exact hhi
    · intro a b hbl habs
      apply ih5 a b hbl
      intro e he
      simp only [addPlainEdge] at he
      rcases List.mem_append.mp he with h1 | h2
      · rcases moveEdgeTarget_subset h1 with h3 | h4
        · exact habs e h3
        · intro hp
          omega
      · simp only [List.mem_singleton] at h2
        subst h2
        intro hp
        simp only at hp
        omega
    · exact fun x hx => ih6 (Finset.mem_insert_of_mem hx)
    · intro r' hr'
      rcases List.mem_cons.mp hr' with rfl | hrest
      · refine ⟨g'.nextId, hm, ?_, ?_, ?_, ?_⟩
        · exact ih3 _ (List.mem_append_right _ (List.mem_singleton.mpr rfl))
        · obtain ⟨e, he, hp⟩ := @moveEdgeTarget_moved g'.edges s t g'.nextId (by omega)
          refine ⟨e, ih4 e ?_ (Or.inr (by omega)), hp⟩
          simp only [addPlainEdge]
          exact List.mem_append_left _ he
        · refine ⟨{ src := g'.nextId, tgt := head }, ?_, rfl, rfl⟩
          apply ih4
          · simp only [addPlainEdge]
            exact List.mem_append_right _ (List.mem_singleton.mpr rfl)
          · exact Or.inl (by simp only; omega)
        · apply ih5 _ _ ht
          intro e he
          simp only [addPlainEdge] at he
          rcases List.mem_append.mp he with h1 | h2
          · exact moveEdgeTarget_removes hcount (by omega) e h1
          · simp only [List.mem_singleton] at h2
            subst h2
            intro hp
            simp only at hp
            omega
      · exact ih7 r' hrest

/-- C9, counterexample: an AST tree whose (single) condition expression is
a `Not` node makes `ASTTree::copyASTNodesFrom` fail — the expression
cloning loop unconditionally performs `cast<AtomicNode>`, which is a fatal
assertion on the three non-Atomic kinds — so cloning does not succeed on
every tree whose condition expressions may be of any of the four kinds. -/
theorem claim_C9_counterexample :
    copyASTNodesFrom emptyASTTree
      { nextID := 1,
        astNodeList := [{ id := 0, kind := ASTKind.code, name := "bb" }],
        condExprList := [ExprNode.notE (ExprNode.atomic 0)] } = none := by rfl

/-- C9, amended: `ASTTree::copyASTNodesFrom` clones the AST nodes of every
kind, but its condition-expression loop clones through `cast<AtomicNode>`:
it succeeds, preserving the kind of every AST node and of every condition
expression, exactly when all condition expressions of the source tree are
of the Atomic kind; a non-Atomic condition expression is a fatal cast
failure. -/
theorem claim_C9_amended (t old : ASTTreeState)
    (h : ∀ e ∈ old.condExprList, e.kind = ExprKind.atomic) :
    ∃ t', copyASTNodesFrom t old = some t' ∧
      t'.condExprList.map ExprNode.kind
        = t.condExprList.map ExprNode.kind ++ old.condExprList.map ExprNode.kind ∧
      t'.astNodeList.map ASTNodeRec.kind
        = t.astNodeList.map ASTNodeRec.kind ++ old.astNodeList.map ASTNodeRec.kind := by
  have hcopy : copyASTNodesFrom t old = some
      { nextID := t.nextID + ((old.astNodeList.map cloneASTNodeRec).enum.map
          (fun p => { p.2 with id := t.nextID + p.1 })).length,
        astNodeList := t.astNodeList ++ (old.astNodeList.map cloneASTNodeRec).enum.map
          (fun p => { p.2 with id := t.nextID + p.1 }),
        condExprList := t.condExprList ++ old.condExprList } := by
    simp only [copyASTNodesFrom, copyCondExprs_atomic h]
  refine ⟨_, hcopy, by simp, ?_⟩
  simp only [List.map_append]
  congr 1
  have hck : (old.astNodeList.map cloneASTNodeRec).map ASTNodeRec.kind
      = old.astNodeList.map ASTNodeRec.kind := by
    rw [List.map_map]
    rfl
  rw [enum_setid_kinds, hck]

/-- C9, witness for the amended theorem at a concrete input. -/
theorem claim_C9_amended_witness :
    (∀ e ∈ [ExprNode.atomic 5], ExprNode.kind e = ExprKind.atomic) ∧
    (∃ t', copyASTNodesFrom emptyASTTree
        { nextID := 1,
          astNodeList := [{ id := 0, kind := ASTKind.code, name := "bb" }],
          condExprList := [ExprNode.atomic 5] } = some t' ∧
      t'.condExprList.map ExprNode.kind
        = emptyASTTree.condExprList.map ExprNode.kind ++ [ExprNode.atomic 5].map ExprNode.kind ∧
      t'.astNodeList.map ASTNodeRec.kind
        = emptyASTTree.astNodeList.map ASTNodeRec.kind
          ++ [({ id := 0, kind := ASTKind.code, name := "bb" } : ASTNodeRec)].map ASTNodeRec.kind) :=
  ⟨by decide, claim_C9_amended emptyASTTree _ (by decide)⟩

/-- C4, counterexample: building the very same AST (here: a single
`addSequenceNode`) twice in one process does not give bit-identical trees —
the sequence-node name embeds the process-global `static int Counter` of
ASTTree.cpp `getID`, which is not reset between runs, so the second run's
node is named "sequence 2" instead of "sequence 1". -/
theorem claim_C4_counterexample :
    (addSequenceNode emptyASTTree 1).1
      ≠ (addSequenceNode emptyASTTree (addSequenceNode emptyASTTree 1).2).1 := by
  decide

/-- C4, amended: for a fixed CFG (here: a fixed list of AST construction
steps), two runs started from any two states of the global name counter
produce ASTs with the same node IDs, the same node kinds and the same tree
shape — but not bit-identical trees, because the names of synthesized
sequence nodes embed the global counter. -/
theorem claim_C4_amended (ops : List ASTBuildOp) (c c' : Nat) :
    sameSkeleton (runASTBuild ops emptyASTTree c).1 (runASTBuild ops emptyASTTree c').1 :=
  runASTBuild_sameSkeleton ops c c' ⟨rfl, rfl, rfl, rfl⟩

/-- C10: `RestructureCFG::runOnFunction` returns `false` on every input —
whether it skips the function (non-lifted, or filtered out by the
single-target option) or fully restructures it — and `getAnalysisUsage`
declares all analyses preserved; the pass's output lives only in its own
side state. -/
theorem claim_C10_run_returns_false (targetFunction : String) (f : FunctionInput) :
    (runOnFunction targetFunction f).modified = false ∧
    restructureAnalysisUsage.preservesAll = true := by
  refine ⟨?_, rfl⟩
  unfold runOnFunction
  split
  · rfl
  · split <;> rfl

/-- C8: under the invariants established by the merge phases (regions
sorted by increasing size, pairwise disjoint or strictly nested, nonempty),
`computeParents` assigns every region the smallest region that is its
strict superset (`none` = the implicit root region when no strict superset
exists), and `applyPartialOrder` returns a permutation of the regions in
which every region appears strictly before its parent, i.e. each region is
processed only after all of its sub-regions. -/
theorem claim_C8_parents_and_order (rs : List Region)
    (hsorted : rs.Pairwise (fun a b => a.card ≤ b.card))
    (htri : rs.Pairwise (fun a b => (Disjoint a b ∨ a ⊂ b ∨ b ⊂ a) ∧ a ≠ b))
    (hne : ∀ r ∈ rs, r.Nonempty) :
    (∀ i, i < rs.length →
      (∀ j, findParent rs i = some j → j < rs.length ∧ rs.getD i ∅ ⊂ rs.getD j ∅ ∧
        ∀ k, k < rs.length → k ≠ i → rs.getD i ∅ ⊂ rs.getD k ∅ →
          rs.getD j ∅ ⊆ rs.getD k ∅) ∧
      (findParent rs i = none →
        ∀ k, k < rs.length → k ≠ i → ¬ rs.getD i ∅ ⊂ rs.getD k ∅)) ∧
    (applyPartialOrder rs).Perm (List.range rs.length) ∧
    (∀ p q (hp : p < (applyPartialOrder rs).length) (hq : q < (applyPartialOrder rs).length),
      (computeParents rs).getD ((applyPartialOrder rs).get ⟨p, hp⟩) none
        = some ((applyPartialOrder rs).get ⟨q, hq⟩) → p < q) := by
  have hspec := findParent_spec rs hsorted htri hne
  refine ⟨hspec, ?_⟩
  have hpar : ∀ i j, i < rs.length → (computeParents rs).getD i none = some j →
      j < rs.length ∧ (rs.getD i ∅).card < (rs.getD j ∅).card := by
    intro i j hi hj
    rw [computeParents_getD hi] at hj
    have h := (hspec i hi).1 j hj
    exact ⟨h.1, Finset.card_lt_card h.2.1⟩
  obtain ⟨hlen, hnd, hallt, hord⟩ := applyPartialOrderAux_spec rs.length (computeParents rs)
    (fun i => (rs.getD i ∅).card) hpar rs.length ∅ [] (by simp) List.nodup_nil (by simp)
    (by intro k hk j; simp at hk) (by simp)
  constructor
  · have htof : (applyPartialOrderAux rs.length (computeParents rs) rs.length ∅ []).toFinset
        = Finset.range rs.length := by
      apply Finset.eq_of_subset_of_card_le
      · intro x hx
        exact Finset.mem_range.mpr (hallt x (List.mem_toFinset.mp hx))
      · rw [Finset.card_range, List.toFinset_card_of_nodup hnd, hlen]
    have hperm : (applyPartialOrderAux rs.length (computeParents rs) rs.length ∅ []).Perm
        (List.range rs.length) :=
      List.perm_of_nodup_nodup_toFinset_eq hnd (List.nodup_range rs.length)
        (by rw [htof]; ext x; simp)
    exact (List.reverse_perm _).trans hperm
  · intro p q hp hq hpq
    simp only [applyPartialOrder] at hp hq hpq
    have hp' : p < (applyPartialOrderAux rs.length (computeParents rs) rs.length ∅ []).length := by
      simpa using hp
    have hq' : q < (applyPartialOrderAux rs.length (computeParents rs) rs.length ∅ []).length := by
      simpa using hq
    rw [List.get_reverse' _ ⟨p, hp⟩ (by simp; omega),
        List.get_reverse' _ ⟨q, hq⟩ (by simp; omega)] at hpq
    have hmem := hord _ (by omega : (applyPartialOrderAux rs.length (computeParents rs)
        rs.length ∅ []).length - 1 - p < (applyPartialOrderAux rs.length (computeParents rs)
        rs.length ∅ []).length) _ hpq
    rw [List.mem_take_iff_getElem] at hmem
    obtain ⟨m, hm, hmeq⟩ := hmem
    have hmlt : m < (applyPartialOrderAux rs.length (computeParents rs) rs.length ∅ []).length := by
      omega
    have hmq : m = (applyPartialOrderAux rs.length (computeParents rs) rs.length ∅ []).length
        - 1 - q := by
      have h2 : (applyPartialOrderAux rs.length (computeParents rs) rs.length ∅ []).get
            ⟨m, hmlt⟩
          = (applyPartialOrderAux rs.length (computeParents rs) rs.length ∅ []).get
            ⟨(applyPartialOrderAux rs.length (computeParents rs) rs.length ∅ []).length
              - 1 - q, by omega⟩ := by
        simpa [List.get_eq_getElem] using hmeq
      have h3 := (List.Nodup.get_inj_iff hnd).mp h2
      simpa using h3
    omega

/-! ### Lemmas for the backedge detector -/

theorem tlookup_cons {m : List (Nat × Nat)} {k v w : Nat} :
    tlookup ((k, v) :: m) w = if k = w then some v else tlookup m w := by
  by_cases h : k = w
  · simp [tlookup, List.find?, h]
  · simp [tlookup, List.find?, h]

theorem dfsStep_eq_none_iff {g : DFSGraph} {s : DFSState} :
    dfsStep g s = none ↔ s.stack = [] := by
  cases h : s.stack with
  | nil => simp [dfsStep, h]
  | cons p rest =>
    obtain ⟨v, idx⟩ := p
    simp only [dfsStep, h]
    split <;> simp

theorem dfs_mark_started {s : DFSState} {v w tm : Nat} :
    (tlookup (if tlookup s.startTime v = none then (v, tm) :: s.startTime
              else s.startTime) w ≠ none) ↔ (dfsStarted s w ∨ w = v) := by
  split
  · rename_i hv
    rw [tlookup_cons]
    by_cases h : v = w
    · subst h
      simp [dfsStarted, hv]
    · simp only [if_neg h, dfsStarted]
      constructor
      · exact Or.inl
      · intro hh
        rcases hh with hh | rfl
        · exact hh
        · exact absurd rfl h
  · rename_i hv
    constructor
    · exact Or.inl
    · intro hh
      rcases hh with hh | rfl
      · exact hh
      · exact hv

theorem dfs_top_unfinished {g : DFSGraph} {s : DFSState} {v idx : Nat}
    {rest : List (Nat × Nat)}
    (hinv : dfsInv g s) (hstack : s.stack = (v, idx) :: rest) :
    ¬ dfsFinished s v := by
  obtain ⟨h1, h2, h3, h4, h5, h6⟩ := hinv
  intro hfin
  have hstart := h4 v hfin
  have hmem : v ∈ stackNodes s := by
    rw [stackNodes, hstack]
    simp
  exact ((h1 v).mpr ⟨hmem, hstart⟩).2 hfin

theorem dfs_gray_iff_stack {g : DFSGraph} {s : DFSState} {v idx : Nat}
    {rest : List (Nat × Nat)}
    (hinv : dfsInv g s) (hstack : s.stack = (v, idx) :: rest) (tm : Nat) :
    ∀ w, ((tlookup (if tlookup s.startTime v = none then (v, tm) :: s.startTime
              else s.startTime) w ≠ none) ∧ tlookup s.finishTime w = none)
      ↔ w ∈ v :: rest.map Prod.fst := by
  obtain ⟨h1, h2, h3, h4, h5, h6⟩ := hinv
  intro w
  rw [dfs_mark_started]
  constructor
  · rintro ⟨hst, hfin⟩
    rcases hst with hst | rfl
    · have hnf : ¬ dfsFinished s w := by
        rw [dfsFinished, not_not]
        exact hfin
      have := ((h1 w).mp ⟨hst, hnf⟩).1
      rw [stackNodes, hstack] at this
      exact this
    · exact List.mem_cons_self _ _
  · intro hmem
    rcases List.mem_cons.mp hmem with rfl | hmem'
    · refine ⟨Or.inr rfl, ?_⟩
      have := dfs_top_unfinished ⟨h1, h2, h3, h4, h5, h6⟩ hstack
      rw [dfsFinished, not_not] at this
      exact this
    · have hst : dfsStarted s w := by
        apply h2
        rw [hstack]
        simpa using hmem'
      have hmem2 : w ∈ stackNodes s := by
        rw [stackNodes, hstack]
        simp [hmem']
      have := ((h1 w).mpr ⟨hmem2, hst⟩).2
      rw [dfsFinished, not_not] at this
      exact ⟨Or.inl hst, this⟩

theorem dfsStep_preserves_inv {g : DFSGraph} {s s' : DFSState}
    (hclosed : ∀ v ∈ g.univ, ∀ w ∈ g.succ v, w ∈ g.univ)
    (hinv : dfsInv g s) (hstep : dfsStep g s = some s') : dfsInv g s' := by
  have hinv0 := hinv
  obtain ⟨h1, h2, h3, h4, h5, h6⟩ := hinv
  cases hstack : s.stack with
  | nil =>
    simp only [dfsStep, hstack] at hstep
    exact Option.noConfusion hstep
  | cons p rest =>
  obtain ⟨v, idx⟩ := p
  simp only [dfsStep, hstack] at hstep
  have hvuniv : v ∈ g.univ := h5 v (by rw [stackNodes, hstack]; simp)
  have hstacknodup : (v :: rest.map Prod.fst).Nodup := by
    have := h3
    rw [stackNodes, hstack] at this
    simpa using this
  have hvnotrest : v ∉ rest.map Prod.fst := (List.nodup_cons.mp hstacknodup).1
  have hrestnodup : (rest.map Prod.fst).Nodup := (List.nodup_cons.mp hstacknodup).2
  have hreststart : ∀ w ∈ rest.map Prod.fst, dfsStarted s w := by
    intro w hw
    apply h2
    rw [hstack]
    simpa using hw
  have hrestmem : ∀ w ∈ rest.map Prod.fst, w ∈ stackNodes s := by
    intro w hw
    rw [stackNodes, hstack]
    simp [hw]
  have hrestfin : ∀ w ∈ rest.map Prod.fst, tlookup s.finishTime w = none := by
    intro w hw
    have := ((h1 w).mpr ⟨hrestmem w hw, hreststart w hw⟩).2
    rw [dfsFinished, not_not] at this
    exact this
  have hvunfin : ¬ dfsFinished s v := dfs_top_unfinished hinv0 hstack
  have hvfin_none : tlookup s.finishTime v = none := by
    rw [dfsFinished, not_not] at hvunfin
    exact hvunfin
  have hgraymem : ∀ w, dfsStarted s w → tlookup s.finishTime w = none →
      w ∈ v :: rest.map Prod.fst := by
    intro w hw hfinw
    have := ((h1 w).mp ⟨hw, by rw [dfsFinished, not_not]; exact hfinw⟩).1
    rw [stackNodes, hstack] at this
    simpa using this
  split at hstep
  · -- Successor traversal (idx < successor count).
    rename_i hlt
    rw [Option.some.injEq] at hstep
    subst hstep
    by_cases hsucc : tlookup (if tlookup s.startTime v = none
        then (v, s.time + 1) :: s.startTime else s.startTime)
        ((g.succ v).get ⟨idx, hlt⟩) = none
    · -- The successor is unstarted: it is pushed with index 0.
      have hsuccfresh : ¬ (dfsStarted s ((g.succ v).get ⟨idx, hlt⟩)
          ∨ (g.succ v).get ⟨idx, hlt⟩ = v) := by
        rw [← @dfs_mark_started s v ((g.succ v).get ⟨idx, hlt⟩) (s.time + 1), not_not]
        exact hsucc
      push_neg at hsuccfresh
      refine ⟨?_, ?_, ?_, ?_, ?_, ?_⟩
      · intro w
        simp only [dfsStarted, dfsFinished, stackNodes, if_pos hsucc, List.map_cons,
          List.mem_cons]
        rw [dfs_mark_started, not_not]
        constructor
        · rintro ⟨hst, hfinw⟩
          rcases hst with hst | rfl
          · have := hgraymem w hst hfinw
            simp only [List.mem_cons] at this
            exact ⟨Or.inr this, Or.inl hst⟩
          · exact ⟨Or.inr (Or.inl rfl), Or.inr rfl⟩
        · rintro ⟨hmem, hst⟩
          rcases hmem with rfl | hmem
          · rcases hst with hst | heq
            · exact absurd hst hsuccfresh.1
            · exact absurd heq hsuccfresh.2
          · rcases hmem with rfl | hmem
            · exact ⟨hst, hvfin_none⟩
            · exact ⟨hst, hrestfin w hmem⟩
      · intro w hw
        simp only [if_pos hsucc, List.drop_succ_cons, List.drop_zero, List.map_cons,
          List.mem_cons] at hw
        simp only [dfsStarted]
        rw [dfs_mark_started]
        rcases hw with rfl | hw
        · exact Or.inr rfl
        · exact Or.inl (hreststart w hw)
      · simp only [stackNodes, if_pos hsucc, List.map_cons]
        rw [List.nodup_cons]
        refine ⟨?_, hstacknodup⟩
        simp only [List.mem_cons]
        rintro (heq | hmem)
        · exact hsuccfresh.2 heq
        · exact hsuccfresh.1 (hreststart _ hmem)
      · intro w hfinw
        simp only [dfsFinished] at hfinw
        simp only [dfsStarted]
        rw [dfs_mark_started]
        exact Or.inl (h4 w hfinw)
      · intro w hw
        simp only [stackNodes, if_pos hsucc, List.map_cons, List.mem_cons] at hw
        rcases hw with rfl | hw
        · exact hclosed v hvuniv _ (List.get_mem _ _ _)
        · rcases hw with rfl | hw
          · exact hvuniv
          · exact h5 w (hrestmem w hw)
      · intro q hq
        simp only [if_pos hsucc, List.mem_cons] at hq
        rcases hq with rfl | hq
        · simp
        · rcases hq with rfl | hq
          · simp only
            omega
          · exact h6 q (by rw [hstack]; simp [hq])
    · -- The successor is already started: only the index advances.
      refine ⟨?_, ?_, ?_, ?_, ?_, ?_⟩
      · intro w
        simp only [dfsStarted, dfsFinished, stackNodes, if_neg hsucc, List.map_cons,
          List.mem_cons]
        rw [dfs_mark_started, not_not]
        constructor
        · rintro ⟨hst, hfinw⟩
          rcases hst with hst | rfl
          · have := hgraymem w hst hfinw
            simp only [List.mem_cons] at this
            exact ⟨this, Or.inl hst⟩
          · exact ⟨Or.inl rfl, Or.inr rfl⟩
        · rintro ⟨hmem, hst⟩
          rcases hmem with rfl | hmem
          · exact ⟨hst, hvfin_none⟩
          · exact ⟨hst, hrestfin w hmem⟩
      · intro w hw
        simp only [if_neg hsucc, List.drop_succ_cons, List.drop_zero] at hw
        simp only [dfsStarted]
        rw [dfs_mark_started]
        exact Or.inl (hreststart w hw)
      · simp only [stackNodes, if_neg hsucc, List.map_cons]
        exact hstacknodup
      · intro w hfinw
        simp only [dfsFinished] at hfinw
        simp only [dfsStarted]
        rw [dfs_mark_started]
        exact Or.inl (h4 w hfinw)
      · intro w hw
        simp only [stackNodes, if_neg hsucc, List.map_cons, List.mem_cons] at hw
        rcases hw with rfl | hw
        · exact hvuniv
        · exact h5 w (hrestmem w hw)
      · intro q hq
        simp only [if_neg hsucc, List.mem_cons] at hq
        rcases hq with rfl | hq
        · simp only
          omega
        · exact h6 q (by rw [hstack]; simp [hq])
  · -- All successors explored: the vertex is finished and popped.
    rw [Option.some.injEq] at hstep
    subst hstep
    refine ⟨?_, ?_, ?_, ?_, ?_, ?_⟩
    · intro w
      simp only [dfsStarted, dfsFinished, stackNodes]
      rw [dfs_mark_started, tlookup_cons, not_not]
      by_cases hwv : v = w
      · subst hwv
        simp only [if_pos rfl]
        constructor
        · rintro ⟨_, hfinw⟩
          cases hfinw
        · rintro ⟨hmem, _⟩
          exact absurd hmem hvnotrest
      · rw [if_neg hwv]
        constructor
        · rintro ⟨hst, hfinw⟩
          rcases hst with hst | rfl
          · have := hgraymem w hst hfinw
            simp only [List.mem_cons] at this
            rcases this with rfl | hmem
            · exact absurd rfl hwv
            · exact ⟨hmem, Or.inl hst⟩
          · exact absurd rfl hwv
        · rintro ⟨hmem, hst⟩
          exact ⟨Or.inl (hreststart w hmem), hrestfin w hmem⟩
    · intro w hw
      simp only [dfsStarted]
      rw [dfs_mark_started]
      refine Or.inl (hreststart w ?_)
      simp only at hw
      exact List.map_subset _ (List.drop_subset _ _) hw
    · exact hrestnodup
    · intro w hfinw
      simp only [dfsFinished, tlookup_cons] at hfinw
      simp only [dfsStarted]
      rw [dfs_mark_started]
      by_cases hwv : v = w
      · exact Or.inr hwv.symm
      · rw [if_neg hwv] at hfinw
        exact Or.inl (h4 w hfinw)
    · intro w hw
      exact h5 w (hrestmem w (by simpa [stackNodes] using hw))
    · intro q hq
      exact h6 q (by rw [hstack]; simp only [List.mem_cons]; exact Or.inr hq)

theorem dfs_mark_none_iff {s : DFSState} {v w tm : Nat} :
    tlookup (if tlookup s.startTime v = none then (v, tm) :: s.startTime
             else s.startTime) w = none ↔ ¬ (dfsStarted s w ∨ w = v) := by
  constructor
  · intro h0 hcon
    exact (dfs_mark_started.mpr hcon) h0
  · intro h0
    by_contra hne
    exact h0 (dfs_mark_started.mp hne)

theorem dfsStep_measure_lt {g : DFSGraph} {s s' : DFSState}
    (hclosed : ∀ v ∈ g.univ, ∀ w ∈ g.succ v, w ∈ g.univ)
    (hinv : dfsInv g s) (hstep : dfsStep g s = some s') :
    dfsMeasure g s' < dfsMeasure g s := by
  obtain ⟨h1, h2, h3, h4, h5, h6⟩ := hinv
  cases hstack : s.stack with
  | nil =>
    simp only [dfsStep, hstack] at hstep
    exact Option.noConfusion hstep
  | cons p rest =>
  obtain ⟨v, idx⟩ := p
  simp only [dfsStep, hstack] at hstep
  have hvstack : v ∈ stackNodes s := by rw [stackNodes, hstack]; simp
  have hvuniv : v ∈ g.univ := h5 v hvstack
  split at hstep
  · rename_i hlt
    rw [Option.some.injEq] at hstep
    subst hstep
    have huuniv : (g.succ v).get ⟨idx, hlt⟩ ∈ g.univ :=
      hclosed v hvuniv _ (List.get_mem _ _ _)
    have hulen : (g.succ ((g.succ v).get ⟨idx, hlt⟩)).length ≤ maxSucc g := by
      rw [maxSucc]
      exact @Finset.le_sup Nat Nat _ _ g.univ (fun w => (g.succ w).length)
        ((g.succ v).get ⟨idx, hlt⟩) huuniv
    by_cases hsucc : tlookup (if tlookup s.startTime v = none
        then (v, s.time + 1) :: s.startTime else s.startTime)
        ((g.succ v).get ⟨idx, hlt⟩) = none
    · -- The successor is fresh: one more node leaves the unstarted set.
      have hufresh : ¬ (dfsStarted s ((g.succ v).get ⟨idx, hlt⟩)
          ∨ (g.succ v).get ⟨idx, hlt⟩ = v) := dfs_mark_none_iff.mp hsucc
      push_neg at hufresh
      have hunotrest : (g.succ v).get ⟨idx, hlt⟩ ∉ rest.map Prod.fst := by
        intro hmem
        exact hufresh.1 (h2 _ (by rw [hstack]; simpa using hmem))
      have hustart : tlookup s.startTime ((g.succ v).get ⟨idx, hlt⟩) = none := by
        have := hufresh.1
        rw [dfsStarted, not_not] at this
        exact this
      have hins : g.univ.filter (fun x => tlookup s.startTime x = none
            ∧ x ∉ v :: rest.map Prod.fst)
          = insert ((g.succ v).get ⟨idx, hlt⟩)
            (g.univ.filter (fun x => tlookup (if tlookup s.startTime v = none
              then (v, s.time + 1) :: s.startTime else s.startTime) x = none
              ∧ x ∉ (g.succ v).get ⟨idx, hlt⟩ :: v :: rest.map Prod.fst)) := by
        ext x
        simp only [Finset.mem_filter, Finset.mem_insert, dfs_mark_none_iff, not_or,
          List.mem_cons, dfsStarted, not_not]
        constructor
        · rintro ⟨hxu, hxst, hxm⟩
          push_neg at hxm
          by_cases hxequ : x = (g.succ v).get ⟨idx, hlt⟩
          · exact Or.inl hxequ
          · refine Or.inr ⟨hxu, ⟨hxst, hxm.1⟩, ?_⟩
            push_neg
            exact ⟨hxequ, hxm.1, hxm.2⟩
        · rintro (rfl | ⟨hxu, ⟨hxst, hxv⟩, hxm⟩)
          · refine ⟨huuniv, hustart, ?_⟩
            push_neg
            exact ⟨hufresh.2, hunotrest⟩
          · push_neg at hxm
            refine ⟨hxu, hxst, ?_⟩
            push_neg
            exact ⟨hxv, hxm.2.2⟩
      have hcard : (g.univ.filter (fun x => tlookup s.startTime x = none
            ∧ x ∉ v :: rest.map Prod.fst)).card
          = (g.univ.filter (fun x => tlookup (if tlookup s.startTime v = none
              then (v, s.time + 1) :: s.startTime else s.startTime) x = none
              ∧ x ∉ (g.succ v).get ⟨idx, hlt⟩ :: v :: rest.map Prod.fst)).card + 1 := by
        rw [hins, Finset.card_insert_of_not_mem]
        intro hmem
        rw [Finset.mem_filter] at hmem
        exact hmem.2.2 (List.mem_cons_self _ _)
      simp only [dfsMeasure, stackNodes, if_pos hsucc, hstack, List.map_cons,
        List.sum_cons]
      rw [hcard, Nat.mul_succ]
      have hW : (g.succ v).length ≤ maxSucc g := by
        rw [maxSucc]
        exact @Finset.le_sup Nat Nat _ _ g.univ (fun w => (g.succ w).length) v hvuniv
      omega
    · -- The successor is already started: only the top index advances.
      have hcard : (g.univ.filter (fun x => tlookup (if tlookup s.startTime v = none
            then (v, s.time + 1) :: s.startTime else s.startTime) x = none
            ∧ x ∉ v :: rest.map Prod.fst)).card
          = (g.univ.filter (fun x => tlookup s.startTime x = none
            ∧ x ∉ v :: rest.map Prod.fst)).card := by
        congr 1
        ext x
        simp only [Finset.mem_filter, dfs_mark_none_iff, not_or, List.mem_cons,
          dfsStarted, not_not]
        tauto
      simp only [dfsMeasure, stackNodes, if_neg hsucc, hstack, List.map_cons,
        List.sum_cons]
      rw [hcard]
      omega
  · rename_i hge
    rw [Option.some.injEq] at hstep
    subst hstep
    have hcard : (g.univ.filter (fun x => tlookup (if tlookup s.startTime v = none
          then (v, s.time + 1) :: s.startTime else s.startTime) x = none
          ∧ x ∉ rest.map Prod.fst)).card
        = (g.univ.filter (fun x => tlookup s.startTime x = none
          ∧ x ∉ v :: rest.map Prod.fst)).card := by
      congr 1
      ext x
      simp only [Finset.mem_filter, dfs_mark_none_iff, not_or, List.mem_cons,
        dfsStarted, not_not]
      constructor
      · rintro ⟨hxu, ⟨hxst, hxv⟩, hxm⟩
        exact ⟨hxu, hxst, hxv, hxm⟩
      · rintro ⟨hxu, hxst, hxv, hxm⟩
        exact ⟨hxu, ⟨hxst, hxv⟩, hxm⟩
    simp only [dfsMeasure, stackNodes, hstack, List.map_cons, List.sum_cons]
    rw [hcard]
    omega

theorem dfsRun_stack_nil {g : DFSGraph}
    (hclosed : ∀ v ∈ g.univ, ∀ w ∈ g.succ v, w ∈ g.univ) :
    ∀ fuel s, dfsInv g s → dfsMeasure g s < fuel → (dfsRun g fuel s).stack = [] := by
  intro fuel
  induction fuel with
  | zero => intro s _ hm; omega
  | succ n ih =>
    intro s hinv hm
    cases hstep : dfsStep g s with
    | none =>
      simp only [dfsRun, hstep]
      exact dfsStep_eq_none_iff.mp hstep
    | some s2 =>
      simp only [dfsRun, hstep]
      exact ih s2 (dfsStep_preserves_inv hclosed hinv hstep)
        (by have := dfsStep_measure_lt hclosed hinv hstep; omega)

theorem dfsInit_inv {g : DFSGraph} (hentry : g.entry ∈ g.univ) :
    dfsInv g (dfsInit g) := by
  refine ⟨?_, ?_, ?_, ?_, ?_, ?_⟩
  · intro w
    simp [dfsInit, dfsStarted, dfsFinished, stackNodes, tlookup]
  · intro w hw
    simp [dfsInit] at hw
  · simp [dfsInit, stackNodes]
  · intro w hfin
    simp [dfsFinished, dfsInit, tlookup] at hfin
  · intro w hw
    simp only [dfsInit, stackNodes, List.map_cons, List.map_nil, List.mem_cons,
      List.not_mem_nil, or_false] at hw
    rw [hw]
    exact hentry
  · intro p hp
    simp only [dfsInit, List.mem_cons, List.not_mem_nil, or_false] at hp
    rw [hp]
    exact Nat.zero_le _

theorem dfsInit_measure_lt {g : DFSGraph} (hentry : g.entry ∈ g.univ) :
    dfsMeasure g (dfsInit g) < dfsFuel g := by
  have h2 : (g.succ g.entry).length ≤ maxSucc g := by
    rw [maxSucc]
    exact @Finset.le_sup Nat Nat _ _ g.univ (fun w => (g.succ w).length) g.entry hentry
  have h1 := Finset.card_filter_le g.univ
    (fun v => tlookup (dfsInit g).startTime v = none ∧ v ∉ stackNodes (dfsInit g))
  have h3 := Nat.mul_le_mul_left (maxSucc g + 2) h1
  have h4 : dfsMeasure g (dfsInit g) = (maxSucc g + 2) * (g.univ.filter
      (fun v => tlookup (dfsInit g).startTime v = none
        ∧ v ∉ stackNodes (dfsInit g))).card + ((g.succ g.entry).length - 0 + 1) := by
    rw [dfsMeasure]
    congr 1
  have h5 : dfsFuel g = (maxSucc g + 2) * g.univ.card + (maxSucc g + 2) := by
    rw [dfsFuel]
    ring
  rw [h4, h5]
  exact Nat.add_lt_add_of_le_of_lt h3 (by omega)

theorem dfsStep_eq_onStack {g : DFSGraph} {s : DFSState} (hinv : dfsInv g s) :
    dfsStep g s = dfsStepOnStack g s := by
  obtain ⟨h1, h2, h3, h4, h5, h6⟩ := hinv
  cases hstack : s.stack with
  | nil => simp only [dfsStep, dfsStepOnStack, hstack]
  | cons p rest =>
  obtain ⟨v, idx⟩ := p
  simp only [dfsStep, dfsStepOnStack, hstack]
  by_cases hlt : idx < (g.succ v).length
  · rw [dif_pos hlt, dif_pos hlt]
    have hcond : (tlookup (if tlookup s.startTime v = none
          then (v, s.time + 1) :: s.startTime else s.startTime)
          ((g.succ v).get ⟨idx, hlt⟩) ≠ none
        ∧ tlookup s.finishTime ((g.succ v).get ⟨idx, hlt⟩) = none)
        ↔ ((g.succ v).get ⟨idx, hlt⟩ ∈ ((v, idx + 1) :: rest).map Prod.fst) := by
      rw [List.map_cons]
      exact @dfs_gray_iff_stack g s v idx rest ⟨h1, h2, h3, h4, h5, h6⟩ hstack
        (s.time + 1) ((g.succ v).get ⟨idx, hlt⟩)
    by_cases hx : tlookup (if tlookup s.startTime v = none
          then (v, s.time + 1) :: s.startTime else s.startTime)
          ((g.succ v).get ⟨idx, hlt⟩) ≠ none
        ∧ tlookup s.finishTime ((g.succ v).get ⟨idx, hlt⟩) = none
    · rw [if_pos hx, if_pos (hcond.mp hx)]
    · rw [if_neg hx, if_neg (fun hc => hx (hcond.mpr hc))]
  · rw [dif_neg hlt, dif_neg hlt]

theorem dfsRun_eq_onStack {g : DFSGraph}
    (hclosed : ∀ v ∈ g.univ, ∀ w ∈ g.succ v, w ∈ g.univ) :
    ∀ fuel s, dfsInv g s → dfsRun g fuel s = dfsRunOnStack g fuel s := by
  intro fuel
  induction fuel with
  | zero => intro s _; rfl
  | succ n ih =>
    intro s hinv
    have htwin := dfsStep_eq_onStack hinv
    cases hstep : dfsStep g s with
    | none =>
      simp only [dfsRun, dfsRunOnStack, ← htwin, hstep]
    | some s2 =>
      simp only [dfsRun, dfsRunOnStack, ← htwin, hstep]
      exact ih s2 (dfsStep_preserves_inv hclosed hinv hstep)

/-- C6: on a finite graph whose successor lists stay inside the node set,
the iterative DFS of getBackedges (lines 60-115) drains its exploration
stack within the modelled fuel, so the traversal completes for every graph
regardless of reducibility, and the backedge set it records (target
started but unfinished when the edge is traversed) is exactly the set
recorded by the textbook classification that marks an edge when its target
is on the current exploration stack; both runs are the same deterministic
function of the graph and its successor iteration order. -/
theorem claim_C6_backedges (g : DFSGraph)
    (hclosed : ∀ v ∈ g.univ, ∀ w ∈ g.succ v, w ∈ g.univ)
    (hentry : g.entry ∈ g.univ) :
    (dfsRun g (dfsFuel g) (dfsInit g)).stack = []
      ∧ getBackedges g = getBackedgesOnStack g := by
  constructor
  · exact dfsRun_stack_nil hclosed (dfsFuel g) (dfsInit g) (dfsInit_inv hentry)
      (dfsInit_measure_lt hentry)
  · rw [getBackedges, getBackedgesOnStack,
      dfsRun_eq_onStack hclosed (dfsFuel g) (dfsInit g) (dfsInit_inv hentry)]

/-- Concrete instantiation of the C6 theorem on a three-node graph with a
0-1 cycle. -/
theorem claim_C6_witness :
    (dfsRun dfsExample (dfsFuel dfsExample) (dfsInit dfsExample)).stack = []
      ∧ getBackedges dfsExample = getBackedgesOnStack dfsExample :=
  claim_C6_backedges dfsExample (by decide) (by decide)

/-- C5: the Region Collapser's entry-dispatch phase synthesizes an entry
Dispatcher head exactly when the metaregion has more than one distinct
retreating-edge target.  In that case every retreating edge is routed
through a new Set node carrying the (distinct) integer of its target into
the dispatcher, the original retreating edge disappears, and the
dispatcher fans out to each target through an edge labeled with that
integer; with exactly one distinct retreating target, that target becomes
the head directly and the graph (in particular its node set) is untouched.
The hypotheses state graph well-formedness and that no retreating source
is a Set node, which the pass itself asserts (backedge sources are Empty
dummy nodes; RestructureCFG.cpp lines 536-539). -/
theorem claim_C5_entry_dispatcher (g : RegionGraph) (meta : Region)
    (backedges : List EdgeD) (rpot : List Nat)
    (hnodes : ∀ nd ∈ g.nodes, nd.id < g.nextId)
    (hedges : ∀ e ∈ g.edges, e.src < g.nextId ∧ e.tgt < g.nextId)
    (hpairs : (g.edges.map (fun e => (e.src, e.tgt))).Nodup)
    (hbnd : backedges.Nodup)
    (hpresent : ∀ r ∈ retreatingsOf meta backedges,
      ∃ e ∈ g.edges, e.src = r.1 ∧ e.tgt = r.2)
    (hnoset : ∀ r ∈ retreatingsOf meta backedges, nodeKind g r.1 ≠ some BBKind.setK)
    (hrpot : ∀ t ∈ retreatingTargetsOf meta backedges,
      t ∈ rpot ∧ containsNode meta t = true)
    (hsome : retreatingTargetsOf meta backedges ≠ []) :
    ∃ res, entryDispatch g meta backedges rpot = some res ∧
      (1 < (retreatingTargetsOf meta backedges).length →
        res.newHeadNeeded = true ∧ res.head = g.nextId ∧
        ({ id := g.nextId, kind := BBKind.dispatcher, stateVariableValue := 0 } : BBNode)
          ∈ res.graph.nodes ∧
        (∀ nd ∈ g.nodes, nd.id ≠ g.nextId) ∧
        (∀ t ∈ retreatingTargetsOf meta backedges,
          ∃ e ∈ res.graph.edges, e.src = res.head ∧ e.tgt = t ∧
            e.labels = [(retreatingTargetsOf meta backedges).indexOf t]) ∧
        (∀ t1 ∈ retreatingTargetsOf meta backedges,
          ∀ t2 ∈ retreatingTargetsOf meta backedges,
          (retreatingTargetsOf meta backedges).indexOf t1
            = (retreatingTargetsOf meta backedges).indexOf t2 → t1 = t2) ∧
        (∀ r ∈ retreatingsOf meta backedges, ∃ m, g.nextId < m ∧
          ({ id := m, kind := BBKind.setK,
             stateVariableValue := (retreatingTargetsOf meta backedges).indexOf r.2 } : BBNode)
            ∈ res.graph.nodes ∧
          (∃ e ∈ res.graph.edges, e.src = r.1 ∧ e.tgt = m) ∧
          (∃ e ∈ res.graph.edges, e.src = m ∧ e.tgt = res.head) ∧
          (∀ e ∈ res.graph.edges, ¬(e.src = r.1 ∧ e.tgt = r.2)))) ∧
      ((retreatingTargetsOf meta backedges).length ≤ 1 →
        res.newHeadNeeded = false ∧ res.graph = g ∧
        res.head ∈ retreatingTargetsOf meta backedges) := by
  have htbound : ∀ t ∈ retreatingTargetsOf meta backedges, t < g.nextId := by
    intro t ht
    rw [retreatingTargetsOf, List.mem_dedup, List.mem_map] at ht
    obtain ⟨r, hr, rfl⟩ := ht
    obtain ⟨e, he, hp⟩ := hpresent r hr
    have := (hedges e he).2
    omega
  have hsbound : ∀ r ∈ retreatingsOf meta backedges, r.1 < g.nextId ∧ r.2 < g.nextId := by
    intro r hr
    obtain ⟨e, he, hp⟩ := hpresent r hr
    have := hedges e he
    omega
  -- The first-candidate election succeeds.
  obtain ⟨t0, ht0⟩ := List.exists_mem_of_ne_nil _ hsome
  have hfindsome : (electFirstCandidate meta (retreatingTargetsOf meta backedges) rpot).isSome := by
    rw [electFirstCandidate, List.find?_isSome]
    refine ⟨t0, (hrpot t0 ht0).1, ?_⟩
    rw [Bool.and_eq_true, (hrpot t0 ht0).2]
    exact ⟨rfl, decide_eq_true ht0⟩
  obtain ⟨fc, hfc⟩ := Option.isSome_iff_exists.mp hfindsome
  have hfcprop := List.find?_some hfc
  rw [Bool.and_eq_true, decide_eq_true_eq] at hfcprop
  have hfcmem : fc ∈ retreatingTargetsOf meta backedges := hfcprop.2
  have hfclt : fc < g.nextId := htbound fc hfcmem
  by_cases hlen : 1 < (retreatingTargetsOf meta backedges).length
  · -- Multi-target case: the dispatcher is synthesized.
    -- Invariants of the graph after dispatcher creation and fan-out.
    have hfanbound : ∀ e ∈ (retreatingTargetsOf meta backedges).enum.foldl
        (fun es q => addLabeledEdge es g.nextId q.2 [q.1]) g.edges,
        e.src < g.nextId + 1 ∧ e.tgt < g.nextId + 1 := by
      intro e he
      rcases fanoutFold_subset he with h1 | h2
      · have := hedges e h1
        omega
      · obtain ⟨hsrc, q, hq, htgt⟩ := h2
        have hq2 : q.2 ∈ retreatingTargetsOf meta backedges := by
          rw [List.mem_enum_iff_get?] at hq
          exact List.get?_mem hq
        have := htbound q.2 hq2
        omega
    have hspec := rewireRetreatings_spec
      (fun t => (retreatingTargetsOf meta backedges).indexOf t) g.nextId
      (retreatingsOf meta backedges)
      { nodes := g.nodes ++ [⟨g.nextId, BBKind.dispatcher, 0⟩],
        edges := (retreatingTargetsOf meta backedges).enum.foldl
          (fun es q => addLabeledEdge es g.nextId q.2 [q.1]) g.edges,
        nextId := g.nextId + 1 }
      (insert g.nextId meta)
      hfanbound
      (by simp only; omega)
      (List.Nodup.filter _ hbnd)
      (by
        intro r hr
        have hb := hsbound r hr
        refine ⟨hb.1, hb.2, ?_, ?_⟩
        · simp only [nodeKind]
          rw [find?_append_id (by simp only; omega)]
          exact hnoset r hr
        · rw [countPair_fanoutFold (by omega)]
          obtain ⟨e, he, hp⟩ := hpresent r hr
          have h1 := countPair_le_one_of_nodup hpairs r.1 r.2
          have h2 : 0 < countPair g.edges r.1 r.2 := by
            have := countPair_pos_of_mem he
            rw [hp.1, hp.2] at this
            exact this
          omega)
    obtain ⟨ih1, ih2, ih3, ih4, ih5, ih6, ih7⟩ := hspec
    cases hED : entryDispatch g meta backedges rpot with
    | none =>
      exfalso
      simp only [entryDispatch, hfc, if_pos hlen] at hED
      exact Option.noConfusion hED
    | some res =>
    refine ⟨res, rfl, ?_, ?_⟩
    swap
    · intro hcon
      omega
    simp only [entryDispatch, hfc, if_pos hlen, addEntryDispatcher,
      Option.some.injEq] at hED
    subst hED
    · intro _
      refine ⟨rfl, rfl, ?_, ?_, ?_, ?_, ?_⟩
      · -- The dispatcher node survives into the final graph.
        simp only [movePredsToHead]
        exact ih3 _ (List.mem_append_right _ (List.mem_singleton.mpr rfl))
      · intro nd hnd
        have := hnodes nd hnd
        omega
      · -- Fan-out edges with the per-target labels.
        intro t ht
        have hqmem : ((retreatingTargetsOf meta backedges).indexOf t, t)
            ∈ (retreatingTargetsOf meta backedges).enum := by
          rw [List.mem_enum_iff_get?]
          rw [List.get?_eq_get (List.indexOf_lt_length.mpr ht)]
          exact congrArg some (List.indexOf_get _)
        obtain ⟨e, he, hsrc, htgt, hlab⟩ := @fanoutFold_new
          ((retreatingTargetsOf meta backedges).enum) g.nextId _ hqmem g.edges
        have he1 : e ∈ (rewireRetreatings
            (fun t => (retreatingTargetsOf meta backedges).indexOf t) g.nextId
            (retreatingsOf meta backedges)
            ({ nodes := g.nodes ++ [⟨g.nextId, BBKind.dispatcher, 0⟩],
               edges := (retreatingTargetsOf meta backedges).enum.foldl
                 (fun es q => addLabeledEdge es g.nextId q.2 [q.1]) g.edges,
               nextId := g.nextId + 1 },
             insert g.nextId meta)).1.edges :=
          ih4 e he (Or.inl (by omega))
        refine ⟨e, ?_, hsrc, htgt, hlab⟩
        simp only [movePredsToHead]
        apply predFold_preserve he1
        intro p hp hcon
        simp only [List.mem_map, List.mem_filter, Bool.and_eq_true,
          decide_eq_true_eq, Bool.not_eq_true'] at hp
        obtain ⟨e', ⟨he', htgt', hsrc'⟩, rfl⟩ := hp
        have : e'.src ∈ (rewireRetreatings
            (fun t => (retreatingTargetsOf meta backedges).indexOf t) g.nextId
            (retreatingsOf meta backedges)
            ({ nodes := g.nodes ++ [⟨g.nextId, BBKind.dispatcher, 0⟩],
               edges := (retreatingTargetsOf meta backedges).enum.foldl
                 (fun es q => addLabeledEdge es g.nextId q.2 [q.1]) g.edges,
               nextId := g.nextId + 1 },
             insert g.nextId meta)).2 := by
          rw [← hcon.1, hsrc]
          exact ih6 (Finset.mem_insert_self _ _)
        rw [containsNode] at hsrc'
        rw [decide_eq_false_iff_not] at hsrc'
        exact hsrc' this
      · -- indexOf is injective on members, so Set values are distinct.
        intro t1 ht1 t2 ht2 heq
        exact (List.indexOf_inj ht1 ht2).mp heq
      · -- Retreating edges rerouted through fresh Set nodes.
        intro r hr
        obtain ⟨m, hm, hnode, hsm, hmh, habs⟩ := ih7 r hr
        refine ⟨m, hm, ?_, ?_, ?_, ?_⟩
        · simpa only [movePredsToHead] using hnode
        · obtain ⟨e, he, hp⟩ := hsm
          refine ⟨e, ?_, hp⟩
          simp only [movePredsToHead]
          apply predFold_preserve he
          intro p hp' hcon
          have := htbound fc hfcmem
          omega
        · obtain ⟨e, he, hp⟩ := hmh
          refine ⟨e, ?_, hp⟩
          simp only [movePredsToHead]
          apply predFold_preserve he
          intro p hp' hcon
          omega
        · intro e he
          simp only [movePredsToHead] at he
          rcases predFold_subset he with h1 | h2
          · exact habs e h1
          · intro hcon
            have := (hsbound r hr).2
            omega
  · -- Single-target case: the graph is untouched and the target is the head.
    cases hED : entryDispatch g meta backedges rpot with
    | none =>
      exfalso
      simp only [entryDispatch, hfc, if_neg hlen] at hED
      exact Option.noConfusion hED
    | some res =>
    refine ⟨res, rfl, ?_, ?_⟩
    · intro hcon
      omega
    simp only [entryDispatch, hfc, if_neg hlen, Option.some.injEq] at hED
    subst hED
    intro _
    exact ⟨rfl, rfl, hfcmem⟩

/-- C5, witness: an irregular loop over nodes `{0, 1, 2, 3}` whose two
retreating edges `(1, 0)` and `(2, 3)` have the two distinct targets `0`
and `3`, so an entry dispatcher (node id 4) is synthesized. -/
theorem claim_C5_witness :
    ∃ res, entryDispatch
        { nodes := [⟨0, BBKind.code, 0⟩, ⟨1, BBKind.empty, 0⟩,
                    ⟨2, BBKind.empty, 0⟩, ⟨3, BBKind.code, 0⟩],
          edges := [⟨1, 0, [], false⟩, ⟨2, 3, [], false⟩],
          nextId := 4 }
        ({0, 1, 2, 3} : Finset Nat) [(1, 0), (2, 3)] [0, 3] = some res ∧
      res.newHeadNeeded = true ∧ res.head = 4 := by
  obtain ⟨res, h1, h2, h3⟩ := claim_C5_entry_dispatcher
    { nodes := [⟨0, BBKind.code, 0⟩, ⟨1, BBKind.empty, 0⟩,
                ⟨2, BBKind.empty, 0⟩, ⟨3, BBKind.code, 0⟩],
      edges := [⟨1, 0, [], false⟩, ⟨2, 3, [], false⟩],
      nextId := 4 }
    ({0, 1, 2, 3} : Finset Nat) [(1, 0), (2, 3)] [0, 3]
    (by decide) (by decide) (by decide) (by decide) (by decide) (by decide)
    (by decide) (by decide)
  exact ⟨res, h1, (h2 (by decide)).1, (h2 (by decide)).2.1⟩

/-- C8, witness: the nested regions `{0}` and `{0, 1}` (sorted by size,
strictly nested, nonempty); the computed order is a permutation of both
region indices. -/
theorem claim_C8_witness :
    (applyPartialOrder [({0} : Finset Nat), {0, 1}]).Perm (List.range 2) :=
  (claim_C8_parents_and_order [{0}, {0, 1}] (by decide) (by decide) (by decide)).2.1

/-- C3: once the abnormal-retreating merge phase reaches its fixed point,
every remaining metaregion contains the source of each backedge exactly
when it contains the target, and this consistency is preserved by the
whole overlap-merge phase, so the `checkMetaregionConsistency` assertion
holds at both of its call sites. -/
theorem claim_C3_consistency (backedges : List EdgeD) (regions : List Region)
    (fuel : Nat) (afterFirst : List Region)
    (h : simplifySCSAbnormalRetreating backedges regions fuel = some afterFirst) :
    checkMetaregionConsistency afterFirst backedges = true ∧
    checkMetaregionConsistency (simplifySCS afterFirst) backedges = true := by
  have h1 : ∀ r ∈ afterFirst, regionConsistent r backedges = true := by
    simp only [simplifySCSAbnormalRetreating] at h
    cases hr : runAbnormal backedges fuel
        { regions := regions, bmap := initialBackedgeMap backedges, blacklisted := ∅ } with
    | none => rw [hr] at h; cases h
    | some st =>
      rw [hr] at h
      cases h
      exact eraseBlacklisted_consistent (runAbnormal_fixed hr)
  constructor
  · exact List.all_eq_true.mpr h1
  · exact List.all_eq_true.mpr (simplifySCS_consistent h1)

/-- C3, witness: a single natural loop `{0, 1}` with backedge `(1, 0)`. -/
theorem claim_C3_witness :
    simplifySCSAbnormalRetreating [(1, 0)] [({0, 1} : Finset Nat)] 0 = some [{0, 1}] ∧
    (checkMetaregionConsistency [({0, 1} : Finset Nat)] [(1, 0)] = true ∧
     checkMetaregionConsistency (simplifySCS [({0, 1} : Finset Nat)]) [(1, 0)] = true) :=
  ⟨by decide, claim_C3_consistency [(1, 0)] [{0, 1}] 0 [{0, 1}] (by decide)⟩

/-- C7: when the overlap-merge fixed point (`simplifySCS`) terminates, any
two distinct remaining metaregions (all nonempty, as every metaregion
created for a backedge is) have node sets that are either disjoint or in
strict inclusion — no partial overlap and no two equal node sets — so the
regions are strictly ordered by inclusion. -/
theorem claim_C7_strict_nesting (rs : List Region) (hne : ∀ r ∈ rs, r.Nonempty) :
    (simplifySCS rs).Pairwise
      (fun a b => (Disjoint a b ∨ a ⊂ b ∨ b ⊂ a) ∧ a ≠ b) := by
  have hpair := mergeSCSStep_none (simplifySCS_fixed rs)
  have hall := simplifySCS_nonempty hne
  exact hpair.imp_of_mem (fun ha _ hc => mergePairCond_false_nesting (hall _ ha) hc)

/-- C7, witness: two nested candidate regions. -/
theorem claim_C7_witness :
    (simplifySCS [({0} : Finset Nat), {0, 1}]).Pairwise
      (fun a b => (Disjoint a b ∨ a ⊂ b ∨ b ⊂ a) ∧ a ≠ b) :=
  claim_C7_strict_nesting [{0}, {0, 1}] (by decide)

end RevngC
